import Mathlib

/-!
Shallow embedding of the two reconciliation engines of the repository:

* `EnhancedReconciliation` (src/src/analysis/reconciliation.py): a pairwise
  scan over `unmatched_book` with hard amount/date tolerance filters.  Its
  score line (line 100) multiplies a `Decimal` by the float `0.3` and so
  raises `TypeError` on every candidate that passes both filters: the
  engine completes a run only when every candidate is filtered out, and it
  can never commit a match.  `suggest_matches` has the same flaw at line
  195 and completes only when the amount quotient exceeds 1.
* `SmartReconciliation` (src/src/expense_categorization.py): a bucket-indexed
  matcher over absolute amounts at cent granularity, an additive score
  (amount up to 0.6, date up to 0.3, description word overlap 0.1) and a
  composite acceptance threshold of 0.85.  It computes in floats only and
  has no such type error.

Modelling conventions:
* Python `Decimal`/`float` arithmetic is modelled by exact rationals `ℚ`.
  The concrete records evaluated below use amounts and tolerances that are
  exact binary fractions (or whose comparisons hold with slack), so every
  branch taken by the rational model is the branch the float program takes.
* A Python exception (`TypeError`, `ValueError`, `InvalidOperation`,
  `ZeroDivisionError`) is modelled by `Option`: a raising computation
  returns `none`.
* Strings are modelled at character-code level (`List ℕ` of code points);
  the descriptions and number/date literals in scope are ASCII, where
  `str.lower`/`str.split` agree with the code-level functions used here.
* `dict.get` defaults of the source are applied by the caller constructing
  a `RawTxn`: a missing `amount` is the string "0", a missing `date` or
  `description` is the empty string.
-/

/-- Character codes of a string; the model's view of Python `str`. -/
def codes (s : String) : List ℕ := s.toList.map Char.toNat

/-- ASCII lower-casing of one character code (Python `str.lower` restricted
to ASCII, which covers every description in scope). -/
def lowerCode (n : ℕ) : ℕ := if 65 ≤ n ∧ n ≤ 90 then n + 32 else n

/-- Lower-cased character codes of a string. -/
def lowerCodes (s : String) : List ℕ := (codes s).map lowerCode

/-- Truncation toward zero, the semantics of Python `int(...)` on a number. -/
def pyTrunc (q : ℚ) : ℤ := if 0 ≤ q then ⌊q⌋ else -⌊-q⌋

/-- Banker's rounding (round half to even), the semantics of Python
`round(x)`; idealized to exact rational input. -/
def pyRound (q : ℚ) : ℤ :=
  let f := ⌊q⌋
  let r := q - f
  if r < 1/2 then f
  else if 1/2 < r then f + 1
  else if f % 2 = 0 then f else f + 1

/-- Python `round(x, 2)`, idealized to exact rational arithmetic. -/
def pyRound2 (q : ℚ) : ℚ := (pyRound (q * 100) : ℚ) / 100

/-! ### Decimal / float literal parsing

`Decimal(str(x))` and `float(x)` raise on a malformed literal.  The model
accepts the plain fixed-point grammar `[+|-] digits [. digits]` (with at
least one digit), which covers every amount literal in scope; `Decimal("")`
and `float("")` raise, and so does any non-numeric text. -/

/-- `true` iff every code in the list is a decimal digit. -/
def allDigits (ds : List ℕ) : Bool := ds.all (fun c => decide (48 ≤ c ∧ c ≤ 57))

/-- Value of a digit-code list read left to right. -/
def digitsVal (ds : List ℕ) : ℕ := ds.foldl (fun a c => a * 10 + (c - 48)) 0

/-- Fixed-point parse at code level: sign, integer-part value, fraction-part
value, fraction length.  `none` models a raising `Decimal`/`float` call. -/
def parseDecCore (l : List ℕ) : Option (Bool × ℕ × ℕ × ℕ) :=
  let (neg, l') :=
    match l with
    | 43 :: r => (false, r)
    | 45 :: r => (true, r)
    | r => (false, r)
  let intPart := l'.takeWhile (fun c => decide (c ≠ 46))
  let rest := l'.dropWhile (fun c => decide (c ≠ 46))
  match rest with
  | [] =>
    if allDigits intPart ∧ intPart ≠ [] then
      some (neg, digitsVal intPart, 0, 0)
    else none
  | _ :: frac =>
    if allDigits intPart ∧ allDigits frac ∧ frac.all (fun c => decide (c ≠ 46)) ∧
        (intPart ≠ [] ∨ frac ≠ []) then
      some (neg, digitsVal intPart, digitsVal frac, frac.length)
    else none

/-- `Decimal(str(x))` / `float(x)` as an exact rational; `none` = raise. -/
def parseDecimal (s : String) : Option ℚ :=
  (parseDecCore (codes s)).map
    (fun e => (if e.1 then -1 else 1) * ((e.2.1 : ℚ) + (e.2.2.1 : ℚ) / 10 ^ e.2.2.2))

/-! ### ISO date parsing and day arithmetic

`datetime.fromisoformat` raises on anything that is not a valid ISO string;
the model accepts the date-only form `YYYY-MM-DD` used throughout the
repository's transactions (`fromisoformat("")` raises, as does any
malformed or out-of-calendar string).  A parsed date is represented by its
civil day number, so `datetime` subtraction `(d1 - d2).days` is exactly the
difference of day numbers (the records in scope carry no time-of-day). -/

/-- Gregorian leap-year test. -/
def isLeap (y : ℤ) : Bool := (y % 4 = 0 ∧ y % 100 ≠ 0) ∨ y % 400 = 0

/-- Days in a month of a given year. -/
def daysInMonth (y : ℤ) (m : ℕ) : ℕ :=
  if m = 2 then (if isLeap y then 29 else 28)
  else if m = 4 ∨ m = 6 ∨ m = 9 ∨ m = 11 then 30 else 31

/-- Civil day number of a Gregorian date (days since 1970-01-01, negative
before); ports the standard `days_from_civil` algorithm, whose divisions
truncate toward zero (`Int.tdiv`). -/
def daysFromCivil (y : ℤ) (m d : ℕ) : ℤ :=
  let y' : ℤ := if m ≤ 2 then y - 1 else y
  let era : ℤ := Int.tdiv (if 0 ≤ y' then y' else y' - 399) 400
  let yoe : ℤ := y' - era * 400
  let mp : ℤ := (m : ℤ) + (if 2 < m then -3 else 9)
  let doy : ℤ := Int.tdiv (153 * mp + 2) 5 + (d : ℤ) - 1
  let doe : ℤ := yoe * 365 + Int.tdiv yoe 4 - Int.tdiv yoe 100 + doy
  era * 146097 + doe - 719468

/-- `datetime.fromisoformat` on the date-only form, as a civil day number;
`none` models the raising call. -/
def parseDate (s : String) : Option ℤ :=
  match codes s with
  | [y1, y2, y3, y4, 45, m1, m2, 45, d1, d2] =>
    if allDigits [y1, y2, y3, y4, m1, m2, d1, d2] then
      let y : ℤ := (digitsVal [y1, y2, y3, y4] : ℤ)
      let m := digitsVal [m1, m2]
      let d := digitsVal [d1, d2]
      if 1 ≤ y ∧ 1 ≤ m ∧ m ≤ 12 ∧ 1 ≤ d ∧ d ≤ daysInMonth y m then
        some (daysFromCivil y m d)
      else none
    else none
  | _ => none

/-! ### `difflib.SequenceMatcher` ratio

Faithful model of `SequenceMatcher(None, a, b).ratio()` for sequences
shorter than 200 elements (below the autojunk limit, so no element is ever
junk — every description in scope is far below it): recursively split
around the longest matching block (ties resolved to the lowest `a` index,
then the lowest `b` index), sum the block lengths `M`, and return
`2*M / (len(a)+len(b))`, or `1.0` when both are empty. -/

/-- Length of the common prefix of two code lists. -/
def commonLen : List ℕ → List ℕ → ℕ
  | a :: as, b :: bs => if a = b then commonLen as bs + 1 else 0
  | _, _ => 0

/-- `[lo, lo+1, ..., lo+n-1]`. -/
def natRangeFrom : ℕ → ℕ → List ℕ
  | _, 0 => []
  | lo, n + 1 => lo :: natRangeFrom (lo + 1) n

/-- Length of the matching block starting at `(i, j)`, clipped to the
window `[_, ahi) × [_, bhi)`. -/
def blockLen (a b : List ℕ) (ahi bhi i j : ℕ) : ℕ :=
  min (commonLen (a.drop i) (b.drop j)) (min (ahi - i) (bhi - j))

/-- `find_longest_match` on the window `[alo, ahi) × [blo, bhi)`: the
longest matching block, earliest in `a` then earliest in `b`;
`(alo, blo, 0)` when there is none. -/
def findLongestMatch (a b : List ℕ) (alo ahi blo bhi : ℕ) : ℕ × ℕ × ℕ :=
  ((natRangeFrom alo (ahi - alo)).flatMap
      (fun i => (natRangeFrom blo (bhi - blo)).map (fun j => (i, j)))).foldl
    (fun best p =>
      let k := blockLen a b ahi bhi p.1 p.2
      if best.2.2 < k then (p.1, p.2, k) else best)
    (alo, blo, 0)

/-- Total size of the matching blocks on a window: recursively split around
the longest match.  The fuel argument only forces termination; the window
measure `(ahi-alo)+(bhi-blo)` strictly decreases at every recursive call,
so the initial fuel `(ahi-alo)+(bhi-blo)` is never exhausted. -/
def matchSumF (a b : List ℕ) : ℕ → ℕ → ℕ → ℕ → ℕ → ℕ
  | 0, _, _, _, _ => 0
  | fuel + 1, alo, ahi, blo, bhi =>
    match findLongestMatch a b alo ahi blo bhi with
    | (i, j, k) =>
      if k = 0 then 0
      else matchSumF a b fuel alo i blo j + k + matchSumF a b fuel (i + k) ahi (j + k) bhi

/-- Total matched size `M` of `get_matching_blocks`. -/
def matchTotal (a b : List ℕ) : ℕ :=
  matchSumF a b (a.length + b.length) 0 a.length 0 b.length

/-- `SequenceMatcher(None, a, b).ratio()` as an exact rational. -/
def seqMatchRatioOf (a b : List ℕ) : ℚ :=
  if a.length + b.length = 0 then 1
  else 2 * (matchTotal a b : ℚ) / ((a.length : ℚ) + (b.length : ℚ))

/-! ### Transaction records -/

/-- A raw transaction as handed to either engine.  Fields are strings:
the source reads Python dicts with defaults (`.get("amount", 0)` →
the string "0", `.get("date", "")` / `.get("description", "")` → "")
and parses amount and date itself. -/
structure RawTxn where
  amount : String
  date : String
  description : String
deriving DecidableEq, Repr

/-- `enumerate`: index-tag a list starting at `i`. -/
def enumFrom (i : ℕ) : List RawTxn → List (ℕ × RawTxn)
  | [] => []
  | t :: r => (i, t) :: enumFrom (i + 1) r

/-! ### `EnhancedReconciliation` (src/src/analysis/reconciliation.py) -/

/-- Configuration state of an `EnhancedReconciliation` instance (the audit
logger performs no matching and is omitted). -/
structure EnhancedReconciliation where
  amount_tolerance : ℚ
  date_tolerance_days : ℤ
  description_match_threshold : ℚ
deriving DecidableEq, Repr

/-- `EnhancedReconciliation.__init__`.  It performs no validation at all;
`amount_tolerance or Decimal("0.01")` replaces both `None` and the falsy
`Decimal("0")` by the default. -/
def EnhancedReconciliation.init (amount_tolerance : Option ℚ) (date_tolerance_days : ℤ)
    (description_match_threshold : ℚ) : EnhancedReconciliation :=
  { amount_tolerance :=
      match amount_tolerance with
      | none => 1/100
      | some q => if q = 0 then 1/100 else q
    date_tolerance_days := date_tolerance_days
    description_match_threshold := description_match_threshold }

/-- `fuzzy_match_description`: `SequenceMatcher` ratio of the lower-cased
descriptions. -/
def fuzzy_match_description (desc1 desc2 : String) : ℚ :=
  seqMatchRatioOf (lowerCodes desc1) (lowerCodes desc2)

/-- Kind tag stored in a match entry (`"fuzzy"` / `"exact"`). -/
inductive MatchKind
  | fuzzy
  | exact
deriving DecidableEq, Repr

/-- One committed match of `reconcile_transactions`.  `best_score` is the
loop variable at commit time; `match_score` is the rounded value stored in
the result entry.  `book_index` is the position of the matched book record
in the input list (the source holds the record object itself; the index
makes the identity explicit). -/
structure EnhMatch where
  bank_transaction : RawTxn
  book_index : ℕ
  book_transaction : RawTxn
  best_score : ℚ
  match_score : ℚ
  match_type : MatchKind
deriving DecidableEq, Repr

/-- Inner-loop body for one book candidate (reconciliation.py lines 81-104):
parse the candidate (`none` = raising parse), then apply the hard amount
and date filters (`some none` = `continue`).  A candidate that passes both
filters reaches line 100, whose amount term
`(1 - min(amount_diff / self.amount_tolerance, 1)) * 0.3` multiplies a
`Decimal` by the float `0.3`: with a positive tolerance the quotient is a
`Decimal` at most 1, `min` returns that `Decimal` and the multiplication
raises `TypeError`; with a zero tolerance the division itself raises.  So
every candidate surviving both filters raises (`none`), and the branch
producing a composite score (the payload type's `some (some _)`, mirroring
the dead lines 102-104) is never taken. -/
def enhCandidate (eng : EnhancedReconciliation) (bank_amount : ℚ) (bank_date : ℤ)
    (bank_desc : String) (book : RawTxn) : Option (Option (ℚ × ℚ)) :=
  match parseDecimal book.amount with
  | none => none
  | some book_amount =>
    match parseDate book.date with
    | none => none
    | some book_date =>
      let amount_diff := |bank_amount - book_amount|
      if eng.amount_tolerance < amount_diff then some none
      else
        let date_diff : ℤ := |bank_date - book_date|
        if eng.date_tolerance_days < date_diff then some none
        else none

/-- Best-candidate fold over the live book list (lines 78-104), carrying
`best_match` and `best_score`.  The winner-update branch mirrors the
comparison of lines 102-104, but it is dead code — `enhCandidate` never
returns a score — so a completed fold always returns its accumulator. -/
def enhSelect (eng : EnhancedReconciliation) (bank_amount : ℚ) (bank_date : ℤ)
    (bank_desc : String) :
    List (ℕ × RawTxn) → Option (ℕ × RawTxn) → ℚ → Option (Option (ℕ × RawTxn) × ℚ)
  | [], best, best_score => some (best, best_score)
  | c :: rest, best, best_score =>
    match enhCandidate eng bank_amount bank_date bank_desc c.2 with
    | none => none
    | some none => enhSelect eng bank_amount bank_date bank_desc rest best best_score
    | some (some (match_score, desc_score)) =>
      if best_score < match_score ∧ eng.description_match_threshold ≤ desc_score then
        enhSelect eng bank_amount bank_date bank_desc rest (some c) match_score
      else enhSelect eng bank_amount bank_date bank_desc rest best best_score

/-- `unmatched_book.remove(best_match)`: removes the first element whose
index is the selected one.  Python removes the first element *equal* to
`best_match`; since the scan selects the first best-scoring element and
value-equal records always score identically, the first equal element is
the selected one, so removing by its position is the same operation. -/
def removeFirstIdx : List (ℕ × RawTxn) → ℕ → List (ℕ × RawTxn)
  | [], _ => []
  | c :: rest, i => if c.1 = i then rest else c :: removeFirstIdx rest i

/-- The bank loop of `reconcile_transactions` (lines 73-115).  State:
remaining bank records, live book records (`unmatched_book`), committed
matches, `unmatched_bank`.  `none` models a raising run.  (`if best_match:`
tests dict truthiness, but a falsy empty dict has an unparseable empty
date and can never be selected, so the test is `best_match is not None`.) -/
def enhLoop (eng : EnhancedReconciliation) :
    List RawTxn → List (ℕ × RawTxn) → List EnhMatch → List RawTxn →
    Option (List EnhMatch × List RawTxn × List (ℕ × RawTxn))
  | [], unmatched_book, matchList, unmatched_bank => some (matchList, unmatched_bank, unmatched_book)
  | bank_txn :: rest, unmatched_book, matchList, unmatched_bank =>
    match parseDecimal bank_txn.amount with
    | none => none
    | some bank_amount =>
      match parseDate bank_txn.date with
      | none => none
      | some bank_date =>
        match enhSelect eng bank_amount bank_date bank_txn.description unmatched_book none 0 with
        | none => none
        | some (some best_match, best_score) =>
          enhLoop eng rest (removeFirstIdx unmatched_book best_match.1)
            (matchList ++ [⟨bank_txn, best_match.1, best_match.2, best_score,
              pyRound2 best_score, if best_score < 1 then .fuzzy else .exact⟩])
            unmatched_bank
        | some (none, _) =>
          enhLoop eng rest unmatched_book matchList (unmatched_bank ++ [bank_txn])

/-- `sum(Decimal(str(t.get("amount", 0))) for t in txns)`; `none` = raise. -/
def sumAmounts : List RawTxn → Option ℚ
  | [] => some 0
  | t :: r =>
    match parseDecimal t.amount with
    | none => none
    | some a =>
      match sumAmounts r with
      | none => none
      | some s => some (a + s)

/-- Report status (`"reconciled"` / `"discrepancies"`). -/
inductive RecStatus
  | reconciled
  | discrepancies
deriving DecidableEq, Repr

/-- The result dict of `reconcile_transactions` (lines 122-145). -/
structure EnhReport where
  status : RecStatus
  total_transactions_bank : ℕ
  total_transactions_book : ℕ
  matched_count : ℕ
  matched_amount : ℚ
  unmatched_bank_count : ℕ
  unmatched_bank_transactions : List RawTxn
  unmatched_book_count : ℕ
  unmatched_book_transactions : List RawTxn
  total_bank_amount : ℚ
  total_book_amount : ℚ
  difference : ℚ
deriving DecidableEq, Repr

/-- `reconcile_transactions`: run the loop, then build the report.  The
summary (lines 118-120) re-parses every bank and book amount, so a
malformed book amount raises here even when the bank list is empty. -/
def reconcile_transactions (eng : EnhancedReconciliation)
    (bank_transactions book_transactions : List RawTxn) : Option EnhReport :=
  match enhLoop eng bank_transactions (enumFrom 0 book_transactions) [] [] with
  | none => none
  | some (matchList, unmatched_bank, unmatched_book) =>
    match sumAmounts bank_transactions with
    | none => none
    | some total_bank =>
      match sumAmounts book_transactions with
      | none => none
      | some total_book =>
        match sumAmounts (matchList.map (·.bank_transaction)) with
        | none => none
        | some total_matched =>
          some { status :=
                   if unmatched_bank.length = 0 ∧ unmatched_book.length = 0 then .reconciled
                   else .discrepancies
                 total_transactions_bank := bank_transactions.length
                 total_transactions_book := book_transactions.length
                 matched_count := matchList.length
                 matched_amount := total_matched
                 unmatched_bank_count := unmatched_bank.length
                 unmatched_bank_transactions := unmatched_bank.take 10
                 unmatched_book_count := unmatched_book.length
                 unmatched_book_transactions := (unmatched_book.map (·.2)).take 10
                 total_bank_amount := total_bank
                 total_book_amount := total_book
                 difference := total_bank - total_book }

/-- One suggestion entry of `suggest_matches`; the stored numbers are the
rounded values placed in the result dict. -/
structure Suggestion where
  transaction : RawTxn
  confidence : ℚ
  desc_score : ℚ
  amount_score : ℚ
  date_score : ℚ
deriving DecidableEq, Repr

/-- Sub-score computation of `suggest_matches` for one candidate (lines
186-195): `(overall, amount_score, date_score, desc_score)`, unrounded.
`none` models a raise: a failing parse; `Decimal` division by zero when
`max(txn_amount, pot_amount) == 0`; and — whenever the amount quotient is
at most 1 — the `TypeError` at line 195, where `amount_score` is the
`Decimal` `1 - min(...)` (`min` returned the `Decimal` quotient) and is
multiplied by the float `0.3`.  The computation completes only when the
quotient exceeds 1: `min` then returns the int `1`, `amount_score` is the
int `0`, and `0 * 0.3` is a float. -/
def suggestPairScores (txn_amount : ℚ) (txn_date : ℤ) (txn_desc : String)
    (potential : RawTxn) : Option (ℚ × ℚ × ℚ × ℚ) :=
  match parseDecimal potential.amount with
  | none => none
  | some pot_amount =>
    match parseDate potential.date with
    | none => none
    | some pot_date =>
      if max txn_amount pot_amount = 0 then none
      else if |txn_amount - pot_amount| / max txn_amount pot_amount ≤ 1 then none
      else
        let date_score := 1 - min ((|txn_date - pot_date| : ℚ) / 30) 1
        let desc_score := fuzzy_match_description txn_desc potential.description
        some (desc_score * (5/10) + 0 * (3/10) + date_score * (2/10),
              0, date_score, desc_score)

/-- Candidate loop of `suggest_matches`: keep (rounded) entries whose raw
overall score is at least 0.5. -/
def suggestLoop (txn_amount : ℚ) (txn_date : ℤ) (txn_desc : String) :
    List RawTxn → Option (List Suggestion)
  | [] => some []
  | p :: rest =>
    match suggestPairScores txn_amount txn_date txn_desc p with
    | none => none
    | some (overall, amount_score, date_score, desc_score) =>
      match suggestLoop txn_amount txn_date txn_desc rest with
      | none => none
      | some others =>
        if 1/2 ≤ overall then
          some (⟨p, pyRound2 overall, pyRound2 desc_score, pyRound2 amount_score,
                 pyRound2 date_score⟩ :: others)
        else some others

/-- Stable insertion keeping the list sorted by descending `confidence`
(equal keys keep their original relative order, as Python's stable
`sort(..., reverse=True)` does). -/
def insertDescending (x : Suggestion) : List Suggestion → List Suggestion
  | [] => [x]
  | y :: r => if x.confidence ≤ y.confidence then y :: insertDescending x r else x :: y :: r

/-- `suggest_matches` (lines 162-220): score every candidate, keep those at
or above 0.5, sort by descending confidence, return the top 5.  The method
reads no engine configuration (only the audit logger, which is omitted). -/
def suggest_matches (unmatched_transaction : RawTxn) (potential_matches : List RawTxn) :
    Option (List Suggestion) :=
  match parseDecimal unmatched_transaction.amount with
  | none => none
  | some txn_amount =>
    match parseDate unmatched_transaction.date with
    | none => none
    | some txn_date =>
      match suggestLoop txn_amount txn_date unmatched_transaction.description potential_matches with
      | none => none
      | some suggestions =>
        some ((suggestions.foldl (fun acc s => insertDescending s acc) []).take 5)

/-! ### `SmartReconciliation` (src/src/expense_categorization.py) -/

/-- `self.match_threshold` set in `SmartReconciliation.__init__` (which
takes no configuration at all). -/
def match_threshold : ℚ := 85/100

/-- Whitespace character codes recognised by Python `str.split()`. -/
def isWsCode (n : ℕ) : Bool := n = 32 ∨ n = 9 ∨ n = 10 ∨ n = 13 ∨ n = 11 ∨ n = 12

/-- `str.split()` on code lists: maximal runs of non-whitespace.  The fuel
is the list length, which bounds the number of steps. -/
def splitWordsF : ℕ → List ℕ → List (List ℕ)
  | 0, _ => []
  | _, [] => []
  | fuel + 1, c :: r =>
    if isWsCode c then splitWordsF fuel r
    else (c :: r.takeWhile (fun x => ! isWsCode x))
      :: splitWordsF fuel (r.dropWhile (fun x => ! isWsCode x))

/-- `str.split()` on a code list. -/
def splitWords (l : List ℕ) : List (List ℕ) := splitWordsF l.length l

/-- `_calculate_match_score` (lines 387-435): additive score from amount
(0.6 / 0.4 / 0 on the relative difference of the absolute amounts), date
proximity (0.3 / 0.2 / 0.1 / 0), and description word overlap (0.1 / 0).
An empty date string is skipped (falsy), a malformed non-empty one raises. -/
def calculate_match_score (bank_tx book_tx : RawTxn) (amount_tolerance : ℚ) : Option ℚ :=
  match parseDecimal bank_tx.amount with
  | none => none
  | some ba =>
    match parseDecimal book_tx.amount with
    | none => none
    | some ka =>
      let bank_amount := |ba|
      let book_amount := |ka|
      let amountComponent : ℚ :=
        if 0 < bank_amount then
          let amount_diff := |bank_amount - book_amount| / bank_amount
          if amount_diff ≤ amount_tolerance then 6/10
          else if amount_diff ≤ 5/100 then 4/10
          else 0
        else 0
      let dateComponent : Option ℚ :=
        if bank_tx.date = "" ∨ book_tx.date = "" then some 0
        else
          match parseDate bank_tx.date with
          | none => none
          | some bd =>
            match parseDate book_tx.date with
            | none => none
            | some kd =>
              let days_diff : ℤ := |bd - kd|
              some (if days_diff = 0 then 3/10
                    else if days_diff ≤ 2 then 2/10
                    else if days_diff ≤ 5 then 1/10
                    else 0)
      match dateComponent with
      | none => none
      | some dateComp =>
        let bank_desc := lowerCodes bank_tx.description
        let book_desc := lowerCodes book_tx.description
        let descComponent : ℚ :=
          if bank_desc ≠ [] ∧ book_desc ≠ [] ∧
              (splitWords bank_desc).any (fun w => (splitWords book_desc).contains w) then 1/10
          else 0
        some (amountComponent + dateComp + descComponent)

/-- Cent-granularity amount bucket: `round(amount * 100)`. -/
def bucketOf (amount : ℚ) : ℤ := pyRound (amount * 100)

/-- `book_amount_index` (lines 311-318): every book record tagged with its
input index and the bucket of its absolute amount.  The source keys a dict
by bucket; filtering this list by a bucket value yields exactly that
dict entry's insertion-ordered list. -/
def buildBookIndex : ℕ → List RawTxn → Option (List (ℕ × RawTxn × ℤ))
  | _, [] => some []
  | i, t :: r =>
    match parseDecimal t.amount with
    | none => none
    | some a =>
      match buildBookIndex (i + 1) r with
      | none => none
      | some rest => some ((i, t, bucketOf |a|) :: rest)

/-- `[lo, lo+1, ..., lo+n-1]` over `ℤ`. -/
def intRangeList : ℤ → ℕ → List ℤ
  | _, 0 => []
  | lo, n + 1 => lo :: intRangeList (lo + 1) n

/-- `tolerance_buckets` (lines 333-335): `max(1, int(a*T*100) + 1)`. -/
def toleranceBuckets (bank_amount amount_tolerance : ℚ) : ℤ :=
  max 1 (pyTrunc (bank_amount * amount_tolerance * 100) + 1)

/-- The candidates visited by the bucket scan (lines 336-343), in visit
order: buckets `bank_bucket - tb .. bank_bucket + tb` in ascending order,
each bucket's records in insertion order. -/
def scannedCandidates (index : List (ℕ × RawTxn × ℤ)) (bank_bucket tb : ℤ) :
    List (ℕ × RawTxn) :=
  (intRangeList (bank_bucket - tb) (2 * tb + 1).toNat).flatMap
    (fun check_bucket =>
      (index.filter (fun e => e.2.2 == check_bucket)).map (fun e => (e.1, e.2.1)))

/-- Candidate fold (lines 343-354): skip consumed book indices, then keep
the strictly best score that also clears `match_threshold`. -/
def smartSelect (amount_tolerance : ℚ) (bank_tx : RawTxn) (matched : List ℕ) :
    List (ℕ × RawTxn) → Option (ℕ × RawTxn) → ℚ → Option (Option (ℕ × RawTxn) × ℚ)
  | [], best, best_score => some (best, best_score)
  | c :: rest, best, best_score =>
    if c.1 ∈ matched then smartSelect amount_tolerance bank_tx matched rest best best_score
    else
      match calculate_match_score bank_tx c.2 amount_tolerance with
      | none => none
      | some score =>
        if best_score < score ∧ match_threshold ≤ score then
          smartSelect amount_tolerance bank_tx matched rest (some c) score
        else smartSelect amount_tolerance bank_tx matched rest best best_score

/-- One committed match of `fuzzy_match_transactions`. -/
structure SmartMatched where
  bank_transaction : RawTxn
  book_index : ℕ
  book_transaction : RawTxn
  match_score : ℚ
deriving DecidableEq, Repr

/-- Entry status in the result list. -/
inductive SmartStatus
  | matched
  | unmatched_bank
  | unmatched_book
deriving DecidableEq, Repr

/-- One entry of the result list of `fuzzy_match_transactions`.
`book_index` makes explicit the index the source tracks in
`matched_book_indices` (and the enumeration index for unmatched book
entries); the source entry itself stores only the record. -/
structure SmartEntry where
  bank_transaction : Option RawTxn
  book_transaction : Option RawTxn
  book_index : Option ℕ
  match_score : ℚ
  status : SmartStatus
deriving DecidableEq, Repr

/-- The bank loop of `fuzzy_match_transactions` (lines 323-365).  State:
remaining bank records, consumed book indices, committed matches,
`unmatched_bank`.  (`if best_match:` truthiness: a falsy empty dict scores
at most 0.4 < 0.85 and is never selected.) -/
def smartLoop (amount_tolerance : ℚ) (index : List (ℕ × RawTxn × ℤ)) :
    List RawTxn → List ℕ → List SmartMatched → List RawTxn →
    Option (List SmartMatched × List RawTxn × List ℕ)
  | [], matched_book_indices, matchList, unmatched_bank =>
    some (matchList, unmatched_bank, matched_book_indices)
  | bank_tx :: rest, matched_book_indices, matchList, unmatched_bank =>
    match parseDecimal bank_tx.amount with
    | none => none
    | some a0 =>
      let bank_amount := |a0|
      let bank_bucket := bucketOf bank_amount
      let tb := toleranceBuckets bank_amount amount_tolerance
      match smartSelect amount_tolerance bank_tx matched_book_indices
          (scannedCandidates index bank_bucket tb) none 0 with
      | none => none
      | some (some best_match, best_score) =>
        smartLoop amount_tolerance index rest (matched_book_indices ++ [best_match.1])
          (matchList ++ [⟨bank_tx, best_match.1, best_match.2, best_score⟩]) unmatched_bank
      | some (none, _) =>
        smartLoop amount_tolerance index rest matched_book_indices matchList
          (unmatched_bank ++ [bank_tx])

/-- `fuzzy_match_transactions` (lines 287-385): build the index, run the
bank loop, then emit matched entries, unmatched-bank entries, and finally
the unmatched book records in input order. -/
def fuzzy_match_transactions (bank_transactions book_transactions : List RawTxn)
    (amount_tolerance : ℚ) : Option (List SmartEntry) :=
  match buildBookIndex 0 book_transactions with
  | none => none
  | some index =>
    match smartLoop amount_tolerance index bank_transactions [] [] [] with
    | none => none
    | some (matchList, unmatched_bank, matched_book_indices) =>
      some (matchList.map (fun m => ⟨some m.bank_transaction, some m.book_transaction,
              some m.book_index, m.match_score, .matched⟩)
        ++ unmatched_bank.map (fun t => ⟨some t, none, none, 0, .unmatched_bank⟩)
        ++ ((enumFrom 0 book_transactions).filter
              (fun e => decide (e.1 ∉ matched_book_indices))).map
             (fun e => ⟨none, some e.2, some e.1, 0, .unmatched_book⟩))
section SeqBounds

/-- Membership in `natRangeFrom`. -/
theorem natRangeFrom_mem {x lo n : ℕ} (h : x ∈ natRangeFrom lo n) : lo ≤ x ∧ x < lo + n := by
  induction n generalizing lo with
  | zero => simp [natRangeFrom] at h
  | succ n ih =>
    simp only [natRangeFrom, List.mem_cons] at h
    rcases h with rfl | h
    · omega
    · have := ih h
      omega

/-- A fold-preservation helper. -/
theorem foldl_preserve {α β : Type} {P : β → Prop} (step : β → α → β) (l : List α) (init : β)
    (h0 : P init) (hstep : ∀ b a, a ∈ l → P b → P (step b a)) : P (l.foldl step init) := by
  induction l generalizing init with
  | nil => exact h0
  | cons x xs ih =>
    exact ih (step init x) (hstep init x (by simp) h0)
      (fun b a ha hb => hstep b a (by simp [ha]) hb)

/-- `blockLen` is clipped to the window. -/
theorem blockLen_le (a b : List ℕ) (ahi bhi i j : ℕ) :
    blockLen a b ahi bhi i j ≤ ahi - i ∧ blockLen a b ahi bhi i j ≤ bhi - j := by
  unfold blockLen
  omega

/-- The block returned by `findLongestMatch` lies inside the window. -/
theorem findLongestMatch_bounds (a b : List ℕ) (alo ahi blo bhi : ℕ) :
    (findLongestMatch a b alo ahi blo bhi).2.2 ≠ 0 →
      alo ≤ (findLongestMatch a b alo ahi blo bhi).1 ∧
      (findLongestMatch a b alo ahi blo bhi).1 + (findLongestMatch a b alo ahi blo bhi).2.2 ≤ ahi ∧
      blo ≤ (findLongestMatch a b alo ahi blo bhi).2.1 ∧
      (findLongestMatch a b alo ahi blo bhi).2.1 + (findLongestMatch a b alo ahi blo bhi).2.2 ≤ bhi := by
  unfold findLongestMatch
  apply foldl_preserve
    (P := fun t : ℕ × ℕ × ℕ => t.2.2 ≠ 0 →
      alo ≤ t.1 ∧ t.1 + t.2.2 ≤ ahi ∧ blo ≤ t.2.1 ∧ t.2.1 + t.2.2 ≤ bhi)
  · intro h; exact absurd rfl h
  · intro best p hp hbest
    rcases p with ⟨pi, pj⟩
    simp only [List.mem_flatMap, List.mem_map, Prod.mk.injEq] at hp
    obtain ⟨i, hi, j, hj, rfl, rfl⟩ := hp
    have hi' := natRangeFrom_mem hi
    have hj' := natRangeFrom_mem hj
    have hb := blockLen_le a b ahi bhi i j
    by_cases hlt : best.2.2 < blockLen a b ahi bhi i j
    · simp only [if_pos hlt]
      intro _
      refine ⟨by omega, by omega, by omega, by omega⟩
    · simp only [if_neg hlt]
      exact hbest

/-- The matched total of a window is at most each window length. -/
theorem matchSumF_le (a b : List ℕ) (fuel alo ahi blo bhi : ℕ) :
    matchSumF a b fuel alo ahi blo bhi ≤ ahi - alo ∧
    matchSumF a b fuel alo ahi blo bhi ≤ bhi - blo := by
  induction fuel generalizing alo ahi blo bhi with
  | zero => simp [matchSumF]
  | succ fuel ih =>
    rw [matchSumF]
    rcases hm : findLongestMatch a b alo ahi blo bhi with ⟨i, j, k⟩
    by_cases hk : k = 0
    · simp [hk]
    · simp only [if_neg hk]
      have hb := findLongestMatch_bounds a b alo ahi blo bhi
      rw [hm] at hb
      have hb' := hb hk
      have h1 := ih alo i blo j
      have h2 := ih (i + k) ahi (j + k) bhi
      simp only at hb'
      omega

/-- The `SequenceMatcher` ratio is non-negative. -/
theorem seqMatchRatioOf_nonneg (a b : List ℕ) : 0 ≤ seqMatchRatioOf a b := by
  unfold seqMatchRatioOf
  split
  · norm_num
  · positivity

/-- The `SequenceMatcher` ratio is at most 1. -/
theorem seqMatchRatioOf_le_one (a b : List ℕ) : seqMatchRatioOf a b ≤ 1 := by
  unfold seqMatchRatioOf
  split
  · exact le_refl 1
  · rename_i h
    have hM1 := (matchSumF_le a b (a.length + b.length) 0 a.length 0 b.length).1
    have hM2 := (matchSumF_le a b (a.length + b.length) 0 a.length 0 b.length).2
    have hpos : (0 : ℚ) < (a.length : ℚ) + (b.length : ℚ) := by
      have h0 : 0 < a.length + b.length := Nat.pos_of_ne_zero h
      exact_mod_cast h0
    rw [div_le_one hpos]
    have hle : 2 * matchTotal a b ≤ a.length + b.length := by
      unfold matchTotal
      omega
    calc (2 : ℚ) * (matchTotal a b : ℚ) = ((2 * matchTotal a b : ℕ) : ℚ) := by push_cast; ring
      _ ≤ ((a.length + b.length : ℕ) : ℚ) := by exact_mod_cast hle
      _ = (a.length : ℚ) + (b.length : ℚ) := by push_cast; ring

/-- `fuzzy_match_description` lands in `[0, 1]`. -/
theorem fuzzy_match_description_mem (desc1 desc2 : String) :
    0 ≤ fuzzy_match_description desc1 desc2 ∧ fuzzy_match_description desc1 desc2 ≤ 1 :=
  ⟨seqMatchRatioOf_nonneg _ _, seqMatchRatioOf_le_one _ _⟩

end SeqBounds
section EnhancedLemmas

variable {eng : EnhancedReconciliation} {bank_amount : ℚ} {bank_date : ℤ} {bank_desc : String}

/-- The candidate evaluation never produces a composite score: the branch
past both hard filters raises (line 100 multiplies a `Decimal` by a
float), so `some (some _)` is unreachable. -/
theorem enhCandidate_not_commit {t : RawTxn} {p : ℚ × ℚ}
    (h : enhCandidate eng bank_amount bank_date bank_desc t = some (some p)) : False := by
  unfold enhCandidate at h
  rcases hka : parseDecimal t.amount with _ | ka
  · rw [hka] at h; exact Option.noConfusion h
  rcases hkd : parseDate t.date with _ | kd
  · rw [hka, hkd] at h; exact Option.noConfusion h
  rw [hka, hkd] at h
  simp only at h
  split_ifs at h <;> simp at h

end EnhancedLemmas
section EnhancedSelect

variable {eng : EnhancedReconciliation} {ba : ℚ} {bd : ℤ} {bdesc : String}

/-- A completed best-candidate fold returns its accumulator unchanged:
since no candidate evaluation can produce a score, the winner-update
branch is unreachable, and `best_match` stays `None`. -/
theorem enhSelect_some :
    ∀ (live : List (ℕ × RawTxn)) (best : Option (ℕ × RawTxn)) (bs : ℚ)
      (out : Option (ℕ × RawTxn) × ℚ),
    enhSelect eng ba bd bdesc live best bs = some out → out = (best, bs) := by
  intro live
  induction live with
  | nil =>
    intro best bs out h
    simp only [enhSelect, Option.some.injEq] at h
    exact h.symm
  | cons c rest ih =>
    intro best bs out h
    rw [enhSelect] at h
    rcases hc : enhCandidate eng ba bd bdesc c.2 with _ | co
    · rw [hc] at h; exact Option.noConfusion h
    rcases co with _ | p
    · rw [hc] at h
      exact ih best bs out h
    · exact (enhCandidate_not_commit hc).elim

/-- The fold completes exactly when every live candidate is skipped by a
hard filter; a candidate that passes both filters raises. -/
theorem enhSelect_of_skip :
    ∀ (live : List (ℕ × RawTxn)) (best : Option (ℕ × RawTxn)) (bs : ℚ),
    (∀ p ∈ live, enhCandidate eng ba bd bdesc p.2 = some none) →
    enhSelect eng ba bd bdesc live best bs = some (best, bs) := by
  intro live
  induction live with
  | nil => intro best bs _; rfl
  | cons c rest ih =>
    intro best bs hall
    rw [enhSelect, hall c (List.mem_cons_self _ _)]
    exact ih best bs (fun p hp => hall p (List.mem_cons_of_mem _ hp))

/-- Conversely, a completed fold had every live candidate skipped. -/
theorem enhSelect_mem_skip :
    ∀ (live : List (ℕ × RawTxn)) (best : Option (ℕ × RawTxn)) (bs : ℚ),
    (enhSelect eng ba bd bdesc live best bs).isSome →
    ∀ p ∈ live, enhCandidate eng ba bd bdesc p.2 = some none := by
  intro live
  induction live with
  | nil => intro best bs _ p hp; simp at hp
  | cons c rest ih =>
    intro best bs h p hp
    rw [enhSelect] at h
    rcases hc : enhCandidate eng ba bd bdesc c.2 with _ | co
    · rw [hc] at h; simp at h
    rcases co with _ | q
    · rw [hc] at h
      rcases List.mem_cons.mp hp with rfl | hp'
      · exact hc
      · exact ih best bs h p hp'
    · exact (enhCandidate_not_commit hc).elim

end EnhancedSelect

/-- The bank loop never commits a match: any run that completes returns
the accumulators unchanged except that every processed bank record was
appended to `unmatched_bank` — the live book list is untouched.  (A
selected `best_match` would need a candidate composite score, which line
100 can never produce.) -/
theorem enhLoop_spec (eng : EnhancedReconciliation) :
    ∀ (bank : List RawTxn) (live : List (ℕ × RawTxn)) (ms : List EnhMatch)
      (ub : List RawTxn) (out : List EnhMatch × List RawTxn × List (ℕ × RawTxn)),
    enhLoop eng bank live ms ub = some out → out = (ms, ub ++ bank, live) := by
  intro bank
  induction bank with
  | nil =>
    intro live ms ub out h
    simp only [enhLoop, Option.some.injEq] at h
    simpa using h.symm
  | cons b rest ih =>
    intro live ms ub out h
    rw [enhLoop] at h
    rcases hba : parseDecimal b.amount with _ | ba
    · rw [hba] at h; exact Option.noConfusion h
    rcases hbd : parseDate b.date with _ | bd
    · rw [hba, hbd] at h; exact Option.noConfusion h
    rw [hba, hbd] at h
    simp only at h
    rcases hsel : enhSelect eng ba bd b.description live none 0 with _ | out'
    · rw [hsel] at h; exact Option.noConfusion h
    obtain rfl : out' = (none, 0) := enhSelect_some live none 0 out' hsel
    rw [hsel] at h
    simp only at h
    have := ih live ms (ub ++ [b]) out h
    simpa [List.append_assoc] using this

/-- The bank loop completes exactly when every bank record parses and every
(bank, live book) pair is rejected by the amount or the date filter. -/
theorem enhLoop_isSome_iff (eng : EnhancedReconciliation) :
    ∀ (bank : List RawTxn) (live : List (ℕ × RawTxn)) (ms : List EnhMatch)
      (ub : List RawTxn),
    (enhLoop eng bank live ms ub).isSome ↔
      ∀ b ∈ bank, ∃ ba bd, parseDecimal b.amount = some ba ∧ parseDate b.date = some bd ∧
        ∀ p ∈ live, enhCandidate eng ba bd b.description p.2 = some none := by
  intro bank
  induction bank with
  | nil =>
    intro live ms ub
    simp [enhLoop]
  | cons b rest ih =>
    intro live ms ub
    rw [enhLoop]
    constructor
    · intro h
      rcases hba : parseDecimal b.amount with _ | ba
      · rw [hba] at h; simp at h
      rcases hbd : parseDate b.date with _ | bd
      · rw [hba, hbd] at h; simp at h
      rw [hba, hbd] at h
      simp only at h
      rcases hsel : enhSelect eng ba bd b.description live none 0 with _ | out'
      · rw [hsel] at h; simp at h
      obtain rfl : out' = (none, 0) := enhSelect_some live none 0 out' hsel
      rw [hsel] at h
      simp only at h
      intro t ht
      rcases List.mem_cons.mp ht with rfl | ht'
      · exact ⟨ba, bd, hba, hbd, enhSelect_mem_skip live none 0 (by rw [hsel]; rfl)⟩
      · exact ((ih live ms (ub ++ [b])).mp h) t ht'
    · intro hall
      obtain ⟨ba, bd, hba, hbd, hskip⟩ := hall b (List.mem_cons_self _ _)
      rw [hba, hbd]
      simp only
      rw [enhSelect_of_skip live none 0 hskip]
      exact (ih live ms (ub ++ [b])).mpr (fun t ht => hall t (List.mem_cons_of_mem _ ht))

theorem natRangeFrom_nodup (lo n : ℕ) : (natRangeFrom lo n).Nodup := by
  induction n generalizing lo with
  | zero => simp [natRangeFrom]
  | succ n ih =>
    rw [natRangeFrom]
    refine List.nodup_cons.mpr ⟨fun hmem => ?_, ih (lo + 1)⟩
    have := natRangeFrom_mem hmem
    omega

/-- `natRangeFrom` membership, both directions. -/
theorem natRangeFrom_mem_iff {x lo n : ℕ} : x ∈ natRangeFrom lo n ↔ lo ≤ x ∧ x < lo + n := by
  constructor
  · exact natRangeFrom_mem
  · intro h
    induction n generalizing lo with
    | zero => omega
    | succ n ih =>
      rw [natRangeFrom]
      rcases Nat.eq_or_lt_of_le h.1 with rfl | hlt
      · exact List.mem_cons_self _ _
      · exact List.mem_cons_of_mem _ (ih ⟨hlt, by omega⟩)

/-- `natRangeFrom` length. -/
theorem natRangeFrom_length (lo n : ℕ) : (natRangeFrom lo n).length = n := by
  induction n generalizing lo with
  | zero => rfl
  | succ n ih => simp [natRangeFrom, ih]

/-- The indices produced by `enumFrom`. -/
theorem enumFrom_map_fst (k : ℕ) (book : List RawTxn) :
    (enumFrom k book).map Prod.fst = natRangeFrom k book.length := by
  induction book generalizing k with
  | nil => simp [enumFrom, natRangeFrom]
  | cons t r ih => simp [enumFrom, natRangeFrom, ih]

/-- `enumFrom` preserves length. -/
theorem enumFrom_length (k : ℕ) (book : List RawTxn) :
    (enumFrom k book).length = book.length := by
  induction book generalizing k with
  | nil => rfl
  | cons t r ih => simp [enumFrom, ih]

/-- Index bound for members of `enumFrom`. -/
theorem enumFrom_mem_bound {k : ℕ} {book : List RawTxn} {e : ℕ × RawTxn}
    (h : e ∈ enumFrom k book) : k ≤ e.1 ∧ e.1 < k + book.length := by
  have : e.1 ∈ (enumFrom k book).map Prod.fst := List.mem_map_of_mem Prod.fst h
  rw [enumFrom_map_fst] at this
  exact natRangeFrom_mem this

/-- Counting: filtering out a duplicate-free set of indices from an
enumeration removes exactly that many entries. -/
theorem enumFrom_filter_length (book : List RawTxn) :
    ∀ (k : ℕ) (l : List ℕ), l.Nodup → (∀ x ∈ l, k ≤ x ∧ x < k + book.length) →
    ((enumFrom k book).filter (fun e => decide (e.1 ∉ l))).length = book.length - l.length := by
  induction book with
  | nil =>
    intro k l _ hbound
    have : l = [] := by
      cases l with
      | nil => rfl
      | cons x r => exact absurd (hbound x (by simp)) (by simp)
    simp [enumFrom, this]
  | cons t r ih =>
    intro k l hnd hbound
    rw [enumFrom]
    by_cases hk : k ∈ l
    · rw [List.filter_cons_of_neg (by simpa using hk)]
      have herase := ih (k + 1) (l.erase k) (hnd.erase k) ?side
      case side =>
        intro x hx
        have hxl := (hnd.mem_erase_iff).mp hx
        have := hbound x hxl.2
        simp only [List.length_cons] at this
        have hne : x ≠ k := hxl.1
        omega
      have hfe : (enumFrom (k + 1) r).filter (fun e => decide (e.1 ∉ l)) =
          (enumFrom (k + 1) r).filter (fun e => decide (e.1 ∉ l.erase k)) := by
        apply List.filter_congr
        intro e he
        have hb := enumFrom_mem_bound he
        have hne : e.1 ≠ k := by omega
        simp only [decide_eq_decide]
        constructor
        · intro h1 h2
          exact h1 ((hnd.mem_erase_iff).mp h2).2
        · intro h1 h2
          exact h1 ((hnd.mem_erase_iff).mpr ⟨hne, h2⟩)
      rw [hfe, herase]
      have hlen := l.length_erase_of_mem hk
      have hpos : 0 < l.length := List.length_pos_of_mem hk
      simp only [List.length_cons]
      omega
    · rw [List.filter_cons_of_pos (by simpa using hk)]
      have hr := ih (k + 1) l hnd ?side2
      case side2 =>
        intro x hx
        have h1 := hbound x hx
        have h2 : k ≠ x := fun he => hk (he ▸ hx)
        simp only [List.length_cons] at h1
        omega
      simp only [List.length_cons, hr]
      have hle : l.length ≤ r.length := by
        have hsub : l ⊆ natRangeFrom (k + 1) r.length := by
          intro x hx
          have h1 := hbound x hx
          have h2 : k ≠ x := fun he => hk (he ▸ hx)
          simp only [List.length_cons] at h1
          exact natRangeFrom_mem_iff.mpr (by omega)
        have := (hnd.subperm hsub).length_le
        rwa [natRangeFrom_length] at this
      omega

/-- Decomposition of `_calculate_match_score`: both amounts parsed, and the
score is the sum of an amount component in `{0, 0.4, 0.6}`, a date
component in `{0, 0.1, 0.2, 0.3}` and a description component in
`{0, 0.1}`; the 0.6 amount component certifies a positive bank magnitude
and a relative difference within the tolerance. -/
theorem calculate_match_score_parts {bank book : RawTxn} {tol s : ℚ}
    (h : calculate_match_score bank book tol = some s) :
    ∃ ba ka ac dc xc, parseDecimal bank.amount = some ba ∧
      parseDecimal book.amount = some ka ∧
      s = ac + dc + xc ∧
      (ac = 0 ∨ ac = 4/10 ∨ ac = 6/10) ∧
      (dc = 0 ∨ dc = 1/10 ∨ dc = 2/10 ∨ dc = 3/10) ∧
      (xc = 0 ∨ xc = 1/10) ∧
      (ac ≠ 0 → 0 < |ba|) ∧
      (ac = 6/10 → abs (|ba| - |ka|) / |ba| ≤ tol) ∧
      (ac = 4/10 → abs (|ba| - |ka|) / |ba| ≤ 5/100) := by
  unfold calculate_match_score at h
  rcases hba : parseDecimal bank.amount with _ | ba
  · rw [hba] at h; exact Option.noConfusion h
  rcases hka : parseDecimal book.amount with _ | ka
  · rw [hba, hka] at h; exact Option.noConfusion h
  rw [hba, hka] at h
  simp only at h
  rcases hdc : (if bank.date = "" ∨ book.date = "" then some (0 : ℚ)
      else match parseDate bank.date with
        | none => none
        | some bd => match parseDate book.date with
          | none => none
          | some kd =>
            some (if |bd - kd| = 0 then 3/10
              else if |bd - kd| ≤ 2 then 2/10
              else if |bd - kd| ≤ 5 then 1/10
              else 0)) with _ | dc
  · rw [hdc] at h; exact Option.noConfusion h
  rw [hdc] at h
  simp only [Option.some.injEq] at h
  have hdcv : dc = 0 ∨ dc = 1/10 ∨ dc = 2/10 ∨ dc = 3/10 := by
    split at hdc
    · simp only [Option.some.injEq] at hdc
      exact Or.inl hdc.symm
    · rcases hpd : parseDate bank.date with _ | bd
      · rw [hpd] at hdc
        exact Option.noConfusion hdc
      rw [hpd] at hdc
      simp only at hdc
      rcases hpk : parseDate book.date with _ | kd
      · rw [hpk] at hdc
        exact Option.noConfusion hdc
      rw [hpk] at hdc
      simp only [Option.some.injEq] at hdc
      subst hdc
      split_ifs <;> norm_num
  refine ⟨ba, ka, _, dc, _, rfl, rfl, h.symm, ?_, hdcv, ?_, ?_, ?_, ?_⟩
  · split_ifs <;> norm_num
  · split_ifs <;> norm_num
  · intro hne
    by_cases hba0 : 0 < |ba|
    · exact hba0
    · rw [if_neg hba0] at hne
      exact absurd rfl hne
  · intro h6
    split_ifs at h6 with h1 h2 h3
    · exact h2
    · exact absurd h6 (by norm_num)
    · exact absurd h6 (by norm_num)
    · exact absurd h6 (by norm_num)
  · intro h4
    split_ifs at h4 with h1 h2 h3
    · exact absurd h4 (by norm_num)
    · exact h3
    · exact absurd h4 (by norm_num)
    · exact absurd h4 (by norm_num)

/-- The bucket matcher's score always lies in `[0, 1]`. -/
theorem calculate_match_score_bounds {bank book : RawTxn} {tol s : ℚ}
    (h : calculate_match_score bank book tol = some s) : 0 ≤ s ∧ s ≤ 1 := by
  obtain ⟨ba, ka, ac, dc, xc, _, _, hs, hac, hdc, hxc, _, _, _⟩ :=
    calculate_match_score_parts h
  subst hs
  rcases hac with rfl | rfl | rfl <;> rcases hdc with rfl | rfl | rfl | rfl <;>
    rcases hxc with rfl | rfl <;> norm_num

/-- A score at or above the 0.85 acceptance threshold certifies that the
amount component took the 0.6 branch: the bank magnitude is positive and
the magnitudes differ by at most `tol` relative to the bank magnitude. -/
theorem calculate_match_score_threshold_amount {bank book : RawTxn} {tol s : ℚ}
    (h : calculate_match_score bank book tol = some s) (hthr : match_threshold ≤ s) :
    ∃ ba ka, parseDecimal bank.amount = some ba ∧ parseDecimal book.amount = some ka ∧
      0 < |ba| ∧ abs (|ba| - |ka|) ≤ tol * |ba| := by
  obtain ⟨ba, ka, ac, dc, xc, hba, hka, hs, hac, hdc, hxc, hpos, h6, _⟩ :=
    calculate_match_score_parts h
  subst hs
  have hac6 : ac = 6/10 := by
    rcases hac with rfl | rfl | rfl
    · exfalso
      rcases hdc with rfl | rfl | rfl | rfl <;> rcases hxc with rfl | rfl <;>
        rw [match_threshold] at hthr <;> norm_num at hthr
    · exfalso
      rcases hdc with rfl | rfl | rfl | rfl <;> rcases hxc with rfl | rfl <;>
        rw [match_threshold] at hthr <;> norm_num at hthr
    · rfl
  have hp : 0 < |ba| := hpos (by rw [hac6]; norm_num)
  refine ⟨ba, ka, hba, hka, hp, ?_⟩
  have := h6 hac6
  rwa [div_le_iff₀ hp] at this

/-- What the bucket-scan fold guarantees about its result: either the
accumulator is returned unchanged, or the winner is a scanned candidate
that was not yet consumed and whose score is the final one, at or above
the acceptance threshold. -/
theorem smartSelect_sel (tol : ℚ) (bank : RawTxn) (matched : List ℕ) :
    ∀ (cands : List (ℕ × RawTxn)) (best : Option (ℕ × RawTxn)) (bs : ℚ)
      (out : Option (ℕ × RawTxn) × ℚ),
    smartSelect tol bank matched cands best bs = some out →
    out = (best, bs) ∨
    ∃ c, c ∈ cands ∧ out.1 = some c ∧ c.1 ∉ matched ∧
      calculate_match_score bank c.2 tol = some out.2 ∧ match_threshold ≤ out.2 := by
  intro cands
  induction cands with
  | nil =>
    intro best bs out h
    simp only [smartSelect, Option.some.injEq] at h
    exact Or.inl h.symm
  | cons c rest ih =>
    intro best bs out h
    rw [smartSelect] at h
    by_cases hmem : c.1 ∈ matched
    · rw [if_pos hmem] at h
      rcases ih best bs out h with hl | ⟨c', h1, h2, h3, h4, h5⟩
      · exact Or.inl hl
      · exact Or.inr ⟨c', List.mem_cons_of_mem _ h1, h2, h3, h4, h5⟩
    · rw [if_neg hmem] at h
      rcases hsc : calculate_match_score bank c.2 tol with _ | score
      · rw [hsc] at h; exact Option.noConfusion h
      rw [hsc] at h
      simp only at h
      by_cases hg : bs < score ∧ match_threshold ≤ score
      · rw [if_pos hg] at h
        rcases ih (some c) score out h with hl | ⟨c', h1, h2, h3, h4, h5⟩
        · refine Or.inr ⟨c, List.mem_cons_self _ _, by rw [hl], hmem, by rw [hl]; exact hsc,
            by rw [hl]; exact hg.2⟩
        · exact Or.inr ⟨c', List.mem_cons_of_mem _ h1, h2, h3, h4, h5⟩
      · rw [if_neg hg] at h
        rcases ih best bs out h with hl | ⟨c', h1, h2, h3, h4, h5⟩
        · exact Or.inl hl
        · exact Or.inr ⟨c', List.mem_cons_of_mem _ h1, h2, h3, h4, h5⟩

/-- A scanned candidate comes from the book index. -/
theorem scannedCandidates_sub {index : List (ℕ × RawTxn × ℤ)} {bank_bucket tb : ℤ}
    {c : ℕ × RawTxn} (h : c ∈ scannedCandidates index bank_bucket tb) :
    ∃ bkt, (c.1, c.2, bkt) ∈ index := by
  unfold scannedCandidates at h
  simp only [List.mem_flatMap, List.mem_map, List.mem_filter] at h
  obtain ⟨ck, _, e, ⟨he, _⟩, hc⟩ := h
  exact ⟨e.2.2, by rw [← hc]; exact he⟩

/-- The index built over the book list enumerates exactly its positions. -/
theorem buildBookIndex_idxs :
    ∀ (book : List RawTxn) (i : ℕ) (index : List (ℕ × RawTxn × ℤ)),
    buildBookIndex i book = some index → index.map Prod.fst = natRangeFrom i book.length := by
  intro book
  induction book with
  | nil =>
    intro i index h
    simp only [buildBookIndex, Option.some.injEq] at h
    subst h
    simp [natRangeFrom]
  | cons t r ih =>
    intro i index h
    rw [buildBookIndex] at h
    rcases ha : parseDecimal t.amount with _ | a
    · rw [ha] at h; exact Option.noConfusion h
    rw [ha] at h
    simp only at h
    rcases hr : buildBookIndex (i + 1) r with _ | rest
    · rw [hr] at h; exact Option.noConfusion h
    rw [hr] at h
    simp only [Option.some.injEq] at h
    subst h
    simp only [List.map_cons, List.length_cons, natRangeFrom]
    rw [ih (i + 1) rest hr]

/-- What the bank loop of the bucket matcher guarantees. -/
def smartMatchProp (tol : ℚ) (index : List (ℕ × RawTxn × ℤ)) (m : SmartMatched) : Prop :=
  calculate_match_score m.bank_transaction m.book_transaction tol = some m.match_score ∧
  match_threshold ≤ m.match_score ∧ ∃ bkt, (m.book_index, m.book_transaction, bkt) ∈ index

/-- Main invariant of the bucket matcher's bank loop: one entry per bank
record, consumed indices are exactly the committed matches' book indices
(in commit order, never repeating, always positions of the index), and
every committed match satisfies `smartMatchProp`. -/
theorem smartLoop_spec (tol : ℚ) (index : List (ℕ × RawTxn × ℤ)) :
    ∀ (bank : List RawTxn) (matched : List ℕ) (ms : List SmartMatched)
      (ub : List RawTxn) (out : List SmartMatched × List RawTxn × List ℕ),
    smartLoop tol index bank matched ms ub = some out →
    matched = ms.map (·.book_index) →
    matched.Nodup →
    (∀ i ∈ matched, i ∈ index.map Prod.fst) →
    out.2.2 = out.1.map (·.book_index) ∧
    out.2.2.Nodup ∧
    (∀ i ∈ out.2.2, i ∈ index.map Prod.fst) ∧
    out.1.length + out.2.1.length = ms.length + ub.length + bank.length ∧
    (∀ m ∈ out.1, m ∈ ms ∨ smartMatchProp tol index m) := by
  intro bank
  induction bank with
  | nil =>
    intro matched ms ub out h heq hnd hsub
    simp only [smartLoop, Option.some.injEq] at h
    subst h
    exact ⟨heq, hnd, hsub, by simp, fun m hm => Or.inl hm⟩
  | cons b rest ih =>
    intro matched ms ub out h heq hnd hsub
    rw [smartLoop] at h
    rcases ha : parseDecimal b.amount with _ | a0
    · rw [ha] at h; exact Option.noConfusion h
    rw [ha] at h
    simp only at h
    rcases hsel : smartSelect tol b matched
        (scannedCandidates index (bucketOf |a0|) (toleranceBuckets |a0| tol)) none 0 with
      _ | ⟨bm, bscore⟩
    · rw [hsel] at h; exact Option.noConfusion h
    rw [hsel] at h
    rcases bm with _ | c
    · simp only at h
      have := ih matched ms (ub ++ [b]) out h heq hnd hsub
      refine ⟨this.1, this.2.1, this.2.2.1, ?_, this.2.2.2.2⟩
      have hc := this.2.2.2.1
      simp only [List.length_append, List.length_cons, List.length_nil] at hc ⊢
      omega
    · simp only at h
      rcases smartSelect_sel tol b matched _ none 0 (some c, bscore) hsel with hl |
        ⟨c', hc1, hc2, hc3, hc4, hc5⟩
      · exact absurd (congrArg Prod.fst hl) (by simp)
      simp only at hc2 hc4 hc5
      have hcc : c = c' := by simpa using hc2
      subst hcc
      obtain ⟨bkt, hbkt⟩ := scannedCandidates_sub hc1
      generalize hm : (⟨b, c.1, c.2, bscore⟩ : SmartMatched) = m at h
      have hmidx : m.book_index = c.1 := by rw [← hm]
      have heq' : matched ++ [c.1] = (ms ++ [m]).map (·.book_index) := by
        rw [List.map_append, ← heq, ← hm]
        rfl
      have hnd' : (matched ++ [c.1]).Nodup := by
        rw [List.nodup_append]
        refine ⟨hnd, by simp, ?_⟩
        intro x hx hxc
        simp only [List.mem_singleton] at hxc
        exact hc3 (hxc ▸ hx)
      have hsub' : ∀ i ∈ matched ++ [c.1], i ∈ index.map Prod.fst := by
        intro i hi
        rcases List.mem_append.mp hi with hi | hi
        · exact hsub i hi
        · simp only [List.mem_singleton] at hi
          subst hi
          exact List.mem_map.mpr ⟨(c.1, c.2, bkt), hbkt, rfl⟩
      have := ih (matched ++ [c.1]) (ms ++ [m]) ub out h heq' hnd' hsub'
      refine ⟨this.1, this.2.1, this.2.2.1, ?_, ?_⟩
      · have hc := this.2.2.2.1
        simp only [List.length_append, List.length_cons, List.length_nil] at hc ⊢
        omega
      · intro m' hm'
        rcases this.2.2.2.2 m' hm' with hin | hprop
        · rcases List.mem_append.mp hin with hin | hin
          · exact Or.inl hin
          · simp only [List.mem_singleton] at hin
            subst hin
            refine Or.inr ?_
            rw [← hm]
            exact ⟨hc4, hc5, bkt, hbkt⟩
        · exact Or.inr hprop

section Totality

/-- `sumAmounts` never raises when every amount parses. -/
theorem sumAmounts_isSome :
    ∀ (l : List RawTxn), (∀ t ∈ l, (parseDecimal t.amount).isSome) →
    (sumAmounts l).isSome := by
  intro l
  induction l with
  | nil => intro _; simp [sumAmounts]
  | cons t r ih =>
    intro hall
    rw [sumAmounts]
    have ht := hall t (by simp)
    rcases hA : parseDecimal t.amount with _ | a
    · rw [hA] at ht; exact absurd ht (by simp)
    have hr := ih (fun t' h => hall t' (by simp [h]))
    rcases hR : sumAmounts r with _ | s
    · rw [hR] at hr; exact absurd hr (by simp)
    simp

/-- Conversely, a completed sum had every amount parse. -/
theorem sumAmounts_parse :
    ∀ (l : List RawTxn), (sumAmounts l).isSome →
    ∀ t ∈ l, (parseDecimal t.amount).isSome := by
  intro l
  induction l with
  | nil => intro _ t ht; simp at ht
  | cons x r ih =>
    intro h t ht
    rw [sumAmounts] at h
    rcases hA : parseDecimal x.amount with _ | a
    · rw [hA] at h; simp at h
    rw [hA] at h
    simp only at h
    rcases hR : sumAmounts r with _ | s
    · rw [hR] at h; simp at h
    rcases List.mem_cons.mp ht with rfl | ht'
    · rw [hA]; rfl
    · exact ih (by rw [hR]; rfl) t ht'

end Totality
section TotalitySmart

/-- The bucket score never raises when both amounts parse and each date is
empty or parses. -/
theorem calculate_match_score_isSome (bank book : RawTxn) (tol : ℚ)
    (hba : (parseDecimal bank.amount).isSome) (hka : (parseDecimal book.amount).isSome)
    (hbd : bank.date = "" ∨ (parseDate bank.date).isSome)
    (hkd : book.date = "" ∨ (parseDate book.date).isSome) :
    (calculate_match_score bank book tol).isSome := by
  unfold calculate_match_score
  rcases hA : parseDecimal bank.amount with _ | ba
  · rw [hA] at hba; exact absurd hba (by simp)
  rcases hK : parseDecimal book.amount with _ | ka
  · rw [hK] at hka; exact absurd hka (by simp)
  simp only
  by_cases hemp : bank.date = "" ∨ book.date = ""
  · rw [if_pos hemp]
    simp
  · rw [if_neg hemp]
    push_neg at hemp
    rcases hbd with hbd | hbd
    · exact absurd hbd hemp.1
    rcases hkd with hkd | hkd
    · exact absurd hkd hemp.2
    rcases hD1 : parseDate bank.date with _ | bd
    · rw [hD1] at hbd; exact absurd hbd (by simp)
    rcases hD2 : parseDate book.date with _ | kd
    · rw [hD2] at hkd; exact absurd hkd (by simp)
    simp

/-- The bucket-scan fold never raises over candidates whose records are
well-formed. -/
theorem smartSelect_isSome (tol : ℚ) (bank : RawTxn) (matched : List ℕ)
    (hba : (parseDecimal bank.amount).isSome)
    (hbd : bank.date = "" ∨ (parseDate bank.date).isSome) :
    ∀ (cands : List (ℕ × RawTxn)) (best : Option (ℕ × RawTxn)) (bs : ℚ),
    (∀ c ∈ cands, (parseDecimal (Prod.snd c).amount).isSome ∧
      ((Prod.snd c).date = "" ∨ (parseDate (Prod.snd c).date).isSome)) →
    (smartSelect tol bank matched cands best bs).isSome := by
  intro cands
  induction cands with
  | nil => intro best bs _; simp [smartSelect]
  | cons c rest ih =>
    intro best bs hall
    rw [smartSelect]
    by_cases hmem : c.1 ∈ matched
    · rw [if_pos hmem]
      exact ih best bs (fun c' h => hall c' (by simp [h]))
    · rw [if_neg hmem]
      have hc := hall c (by simp)
      have hcs := calculate_match_score_isSome bank c.2 tol hba hc.1 hbd hc.2
      rcases hS : calculate_match_score bank c.2 tol with _ | score
      · rw [hS] at hcs; exact absurd hcs (by simp)
      simp only
      split_ifs
      · exact ih (some c) score (fun c' h => hall c' (by simp [h]))
      · exact ih best bs (fun c' h => hall c' (by simp [h]))

/-- Records stored in the book index are book records. -/
theorem buildBookIndex_mem :
    ∀ (book : List RawTxn) (i : ℕ) (index : List (ℕ × RawTxn × ℤ)) (e : ℕ × RawTxn × ℤ),
    buildBookIndex i book = some index → e ∈ index → e.2.1 ∈ book := by
  intro book
  induction book with
  | nil =>
    intro i index e h hmem
    simp only [buildBookIndex, Option.some.injEq] at h
    subst h
    simp at hmem
  | cons t r ih =>
    intro i index e h hmem
    rw [buildBookIndex] at h
    rcases hA : parseDecimal t.amount with _ | a
    · rw [hA] at h; exact Option.noConfusion h
    rw [hA] at h
    simp only at h
    rcases hR : buildBookIndex (i + 1) r with _ | rest
    · rw [hR] at h; exact Option.noConfusion h
    rw [hR] at h
    simp only [Option.some.injEq] at h
    subst h
    rcases List.mem_cons.mp hmem with rfl | hmem'
    · simp
    · exact List.mem_cons_of_mem _ (ih (i + 1) rest e hR hmem')

/-- Building the book index never raises when every book amount parses. -/
theorem buildBookIndex_isSome :
    ∀ (book : List RawTxn) (i : ℕ), (∀ t ∈ book, (parseDecimal t.amount).isSome) →
    (buildBookIndex i book).isSome := by
  intro book
  induction book with
  | nil => intro i _; simp [buildBookIndex]
  | cons t r ih =>
    intro i hall
    rw [buildBookIndex]
    have ht := hall t (by simp)
    rcases hA : parseDecimal t.amount with _ | a
    · rw [hA] at ht; exact absurd ht (by simp)
    have hr := ih (i + 1) (fun t' h => hall t' (by simp [h]))
    rcases hR : buildBookIndex (i + 1) r with _ | rest
    · rw [hR] at hr; exact absurd hr (by simp)
    simp

/-- The bucket matcher's bank loop never raises over well-formed inputs. -/
theorem smartLoop_isSome (tol : ℚ) (index : List (ℕ × RawTxn × ℤ)) (book : List RawTxn)
    (hidx : buildBookIndex 0 book = some index)
    (hbook : ∀ t ∈ book, (parseDecimal t.amount).isSome ∧
      (t.date = "" ∨ (parseDate t.date).isSome)) :
    ∀ (bank : List RawTxn) (matched : List ℕ) (ms : List SmartMatched) (ub : List RawTxn),
    (∀ t ∈ bank, (parseDecimal t.amount).isSome ∧
      (t.date = "" ∨ (parseDate t.date).isSome)) →
    (smartLoop tol index bank matched ms ub).isSome := by
  intro bank
  induction bank with
  | nil => intro matched ms ub _; simp [smartLoop]
  | cons b rest ih =>
    intro matched ms ub hbank
    rw [smartLoop]
    have hb := hbank b (by simp)
    rcases hA : parseDecimal b.amount with _ | a0
    · rw [hA] at hb; exact absurd hb.1 (by simp)
    simp only
    have hcands : ∀ c ∈ scannedCandidates index (bucketOf |a0|) (toleranceBuckets |a0| tol),
        (parseDecimal (Prod.snd c).amount).isSome ∧
        ((Prod.snd c).date = "" ∨ (parseDate (Prod.snd c).date).isSome) := by
      intro c hc
      obtain ⟨bkt, hbkt⟩ := scannedCandidates_sub hc
      have hcb : c.2 ∈ book := buildBookIndex_mem book 0 index (c.1, c.2, bkt) hidx hbkt
      exact hbook c.2 hcb
    have hsel := smartSelect_isSome tol b matched hb.1 hb.2 _ none 0 hcands
    rcases hS : smartSelect tol b matched
        (scannedCandidates index (bucketOf |a0|) (toleranceBuckets |a0| tol)) none 0 with
      _ | ⟨bm, bs⟩
    · rw [hS] at hsel; exact absurd hsel (by simp)
    rcases bm with _ | c
    · exact ih matched ms (ub ++ [b]) (fun t h => hbank t (by simp [h]))
    · exact ih (matched ++ [c.1]) _ ub (fun t h => hbank t (by simp [h]))

/-- A record enumerated by `enumFrom` is a member of the underlying list. -/
theorem enumFrom_snd_mem {k : ℕ} {book : List RawTxn} {c : ℕ × RawTxn}
    (h : c ∈ enumFrom k book) : c.2 ∈ book := by
  induction book generalizing k with
  | nil => simp [enumFrom] at h
  | cons t r ih =>
    rw [enumFrom] at h
    rcases List.mem_cons.mp h with rfl | h'
    · simp
    · exact List.mem_cons_of_mem _ (ih h')

/-- `fuzzy_match_transactions` never raises over well-formed inputs. -/
theorem fuzzy_match_transactions_isSome (bank book : List RawTxn) (tol : ℚ)
    (hall : ∀ t ∈ bank ++ book, (parseDecimal t.amount).isSome ∧
      (t.date = "" ∨ (parseDate t.date).isSome)) :
    (fuzzy_match_transactions bank book tol).isSome := by
  unfold fuzzy_match_transactions
  have hbook : ∀ t ∈ book, (parseDecimal t.amount).isSome ∧
      (t.date = "" ∨ (parseDate t.date).isSome) :=
    fun t h => hall t (List.mem_append_right _ h)
  have hidx := buildBookIndex_isSome book 0 (fun t h => (hbook t h).1)
  rcases hI : buildBookIndex 0 book with _ | index
  · rw [hI] at hidx; exact absurd hidx (by simp)
  simp only
  have hloop := smartLoop_isSome tol index book hI hbook bank [] [] []
    (fun t h => hall t (List.mem_append_left _ h))
  rcases hL : smartLoop tol index bank [] [] [] with _ | out
  · rw [hL] at hloop; exact absurd hloop (by simp)
  rcases out with ⟨ms, ub, matched⟩
  simp

/-- `reconcile_transactions` completes exactly when every book amount
parses and every bank record parses with all its live candidates rejected
by a hard filter; a candidate passing both filters raises at the score
line. -/
theorem reconcile_transactions_isSome_iff (eng : EnhancedReconciliation)
    (bank book : List RawTxn) :
    (reconcile_transactions eng bank book).isSome ↔
      ((∀ t ∈ book, (parseDecimal t.amount).isSome) ∧
        ∀ b ∈ bank, ∃ ba bd, parseDecimal b.amount = some ba ∧ parseDate b.date = some bd ∧
          ∀ p ∈ enumFrom 0 book, enhCandidate eng ba bd b.description p.2 = some none) := by
  unfold reconcile_transactions
  constructor
  · intro h
    rcases hL : enhLoop eng bank (enumFrom 0 book) [] [] with _ | out
    · rw [hL] at h; simp at h
    obtain rfl : out = ([], [] ++ bank, enumFrom 0 book) :=
      enhLoop_spec eng bank (enumFrom 0 book) [] [] out hL
    rw [hL] at h
    simp only at h
    rcases hS2 : sumAmounts book with _ | s2
    · rcases hS1 : sumAmounts bank with _ | s1 <;> rw [hS1] at h
      · simp at h
      · rw [hS2] at h; simp at h
    refine ⟨sumAmounts_parse book (by rw [hS2]; rfl), ?_⟩
    exact (enhLoop_isSome_iff eng bank (enumFrom 0 book) [] []).mp (by rw [hL]; rfl)
  · rintro ⟨hbook, hbank⟩
    have hloop := (enhLoop_isSome_iff eng bank (enumFrom 0 book) [] []).mpr hbank
    rcases hL : enhLoop eng bank (enumFrom 0 book) [] [] with _ | out
    · rw [hL] at hloop; simp at hloop
    obtain rfl : out = ([], [] ++ bank, enumFrom 0 book) :=
      enhLoop_spec eng bank (enumFrom 0 book) [] [] out hL
    simp only
    have h1 : (sumAmounts bank).isSome := sumAmounts_isSome bank (fun t ht => by
      obtain ⟨ba, bd, hba, _, _⟩ := hbank t ht
      rw [hba]; rfl)
    rcases hS1 : sumAmounts bank with _ | s1
    · rw [hS1] at h1; simp at h1
    have h2 : (sumAmounts book).isSome := sumAmounts_isSome book hbook
    rcases hS2 : sumAmounts book with _ | s2
    · rw [hS2] at h2; simp at h2
    simp [sumAmounts]

end TotalitySmart

/-- Inversion of the suggestion scorer: a completed evaluation had both
parses succeed, a non-zero maximum, an amount quotient strictly above 1
(anything else raises at line 195), a pinned amount sub-score of 0, and
the remaining values exactly the source's formulas. -/
theorem suggestPairScores_eq {txn_amount : ℚ} {txn_date : ℤ} {txn_desc : String}
    {p : RawTxn} {ov as dts ds : ℚ}
    (h : suggestPairScores txn_amount txn_date txn_desc p = some (ov, as, dts, ds)) :
    ∃ pa pd, parseDecimal p.amount = some pa ∧ parseDate p.date = some pd ∧
      max txn_amount pa ≠ 0 ∧ 1 < |txn_amount - pa| / max txn_amount pa ∧
      as = 0 ∧
      dts = 1 - min ((|txn_date - pd| : ℚ) / 30) 1 ∧
      ds = fuzzy_match_description txn_desc p.description ∧
      ov = ds * (5/10) + 0 * (3/10) + dts * (2/10) := by
  unfold suggestPairScores at h
  rcases hA : parseDecimal p.amount with _ | pa
  · rw [hA] at h; exact Option.noConfusion h
  rcases hD : parseDate p.date with _ | pd
  · rw [hA, hD] at h; exact Option.noConfusion h
  rw [hA, hD] at h
  simp only at h
  split_ifs at h with h0 h1
  simp only [Option.some.injEq, Prod.mk.injEq] at h
  obtain ⟨rfl, rfl, rfl, rfl⟩ := h
  exact ⟨pa, pd, rfl, rfl, h0, not_le.mp h1, rfl, rfl, rfl, rfl⟩

/-- `pyRound` differs from its argument by at most one half. -/
theorem pyRound_close (q : ℚ) : |(pyRound q : ℚ) - q| ≤ 1/2 := by
  have h1 := Int.floor_le q
  have h2 := Int.lt_floor_add_one q
  simp only [pyRound]
  split_ifs with ha hb hc
  · rw [abs_le]
    constructor <;> push_cast <;> linarith
  · rw [abs_le]
    push_cast
    constructor <;> linarith
  · rw [abs_le]
    have : q - ⌊q⌋ = 1/2 := by linarith
    constructor <;> push_cast <;> linarith
  · rw [abs_le]
    have : q - ⌊q⌋ = 1/2 := by linarith
    constructor <;> push_cast <;> linarith

/-- `pyTrunc` is the floor on non-negative arguments. -/
theorem pyTrunc_of_nonneg {q : ℚ} (h : 0 ≤ q) : pyTrunc q = ⌊q⌋ := by
  unfold pyTrunc
  rw [if_pos h]

/-- C1: for every pair of input lists, a completed reconciliation run
partitions each side exactly — matches + unmatched-bank = bank records
processed, and matches + unmatched-book = book records processed — in the
pairwise engine's report counts and in the bucket engine's result entries. -/
theorem C1_partition_exact :
    (∀ (eng : EnhancedReconciliation) (bank book : List RawTxn) (r : EnhReport),
      reconcile_transactions eng bank book = some r →
      r.matched_count + r.unmatched_bank_count = bank.length ∧
      r.matched_count + r.unmatched_book_count = book.length) ∧
    (∀ (tol : ℚ) (bank book : List RawTxn) (entries : List SmartEntry),
      fuzzy_match_transactions bank book tol = some entries →
      entries.countP (fun e => e.status == SmartStatus.matched) +
        entries.countP (fun e => e.status == SmartStatus.unmatched_bank) = bank.length ∧
      entries.countP (fun e => e.status == SmartStatus.matched) +
        entries.countP (fun e => e.status == SmartStatus.unmatched_book) = book.length) := by
  constructor
  · intro eng bank book r h
    unfold reconcile_transactions at h
    rcases hL : enhLoop eng bank (enumFrom 0 book) [] [] with _ | out
    · rw [hL] at h; exact Option.noConfusion h
    obtain rfl : out = ([], [] ++ bank, enumFrom 0 book) :=
      enhLoop_spec eng bank (enumFrom 0 book) [] [] out hL
    rw [hL] at h
    simp only at h
    rcases hS1 : sumAmounts bank with _ | s1
    · rw [hS1] at h; exact Option.noConfusion h
    rw [hS1] at h
    rcases hS2 : sumAmounts book with _ | s2
    · rw [hS2] at h; exact Option.noConfusion h
    rw [hS2] at h
    simp only [List.map_nil, sumAmounts, Option.some.injEq] at h
    subst h
    refine ⟨by simp, by simp [enumFrom_length]⟩
  · intro tol bank book entries h
    unfold fuzzy_match_transactions at h
    rcases hI : buildBookIndex 0 book with _ | index
    · rw [hI] at h; exact Option.noConfusion h
    rw [hI] at h
    simp only at h
    rcases hL : smartLoop tol index bank [] [] [] with _ | out
    · rw [hL] at h; exact Option.noConfusion h
    rcases out with ⟨ms, ub, matched⟩
    rw [hL] at h
    simp only [Option.some.injEq] at h
    subst h
    have spec := smartLoop_spec tol index bank [] [] [] (ms, ub, matched) hL (by simp)
      (by simp) (by simp)
    simp only at spec
    have hidx := buildBookIndex_idxs book 0 index hI
    have hbound : ∀ x ∈ matched, 0 ≤ x ∧ x < 0 + book.length := by
      intro x hx
      have := spec.2.2.1 x hx
      rw [hidx] at this
      exact natRangeFrom_mem this
    have hfl := enumFrom_filter_length book 0 matched spec.2.1 hbound
    simp only [decide_not] at hfl
    have hmlen : matched.length = ms.length := by
      rw [spec.1]; simp
    have hle : matched.length ≤ book.length := by
      have hsubn : matched ⊆ natRangeFrom 0 book.length := by
        intro x hx
        have := spec.2.2.1 x hx
        rwa [hidx] at this
      have := (spec.2.1.subperm hsubn).length_le
      rwa [natRangeFrom_length] at this
    have hcount := spec.2.2.2.1
    simp only [List.length_nil] at hcount
    have hb1 : (SmartStatus.matched == SmartStatus.matched) = true := rfl
    have hb2 : (SmartStatus.unmatched_bank == SmartStatus.matched) = false := rfl
    have hb3 : (SmartStatus.unmatched_book == SmartStatus.matched) = false := rfl
    have hb4 : (SmartStatus.matched == SmartStatus.unmatched_bank) = false := rfl
    have hb5 : (SmartStatus.unmatched_bank == SmartStatus.unmatched_bank) = true := rfl
    have hb6 : (SmartStatus.unmatched_book == SmartStatus.unmatched_bank) = false := rfl
    have hb7 : (SmartStatus.matched == SmartStatus.unmatched_book) = false := rfl
    have hb8 : (SmartStatus.unmatched_bank == SmartStatus.unmatched_book) = false := rfl
    have hb9 : (SmartStatus.unmatched_book == SmartStatus.unmatched_book) = true := rfl
    constructor
    · simp [List.countP_append, List.countP_map, Function.comp_def,
        hb1, hb2, hb3, hb4, hb5, hb6, hb7, hb8, hb9]
      omega
    · simp [List.countP_append, List.countP_map, Function.comp_def, hfl,
        hb1, hb2, hb3, hb4, hb5, hb6, hb7, hb8, hb9]
      omega

/-! ### Concrete sample records and evaluated runs

These evaluation facts instantiate the engines on small concrete inputs;
the claim witnesses and counterexamples below draw on them. -/

/-- A bank/book record: 1.00 on 2024-01-15, description "ab". -/
def txnA : RawTxn := ⟨"1.00", "2024-01-15", "ab"⟩

/-- A bank record with a negative amount. -/
def txnN : RawTxn := ⟨"-1.00", "2024-01-15", "ab"⟩

/-- A book record whose amount is far outside every tolerance. -/
def txnP : RawTxn := ⟨"2.00", "2024-01-15", "ab"⟩

/-- Bank record for the bucket tie run: amount 1.00 (bucket 100), no
description word in common with either book record. -/
def txnZ : RawTxn := ⟨"1.00", "2024-01-15", "z"⟩

/-- First-inserted book record of the tie run: 1.125 (bucket 112). -/
def txnX : RawTxn := ⟨"1.125", "2024-01-15", "x"⟩

/-- Second-inserted book record of the tie run: 0.875 (bucket 88). -/
def txnY : RawTxn := ⟨"0.875", "2024-01-15", "y"⟩

/-- A record whose date is empty (the `.get("date", "")` default):
`datetime.fromisoformat("")` raises. -/
def txnBad : RawTxn := ⟨"10", "", "x"⟩

/-- The default-configured pairwise engine:
`EnhancedReconciliation()` with tolerance 0.01, 3 days, threshold 0.8. -/
def engA : EnhancedReconciliation := ⟨1/100, 3, 8/10⟩

theorem engA_is_default : EnhancedReconciliation.init none 3 (8/10) = engA := rfl

theorem evalDate15 : parseDate "2024-01-15" = some 19737 := by decide

theorem evalAmt100 : parseDecimal "1.00" = some 1 := by
  have h : parseDecCore (codes "1.00") = some (false, 1, 0, 2) := by decide
  rw [parseDecimal, h]
  norm_num

theorem evalAmtN100 : parseDecimal "-1.00" = some (-1) := by
  have h : parseDecCore (codes "-1.00") = some (true, 1, 0, 2) := by decide
  rw [parseDecimal, h]
  norm_num

theorem evalAmt200 : parseDecimal "2.00" = some 2 := by
  have h : parseDecCore (codes "2.00") = some (false, 2, 0, 2) := by decide
  rw [parseDecimal, h]
  norm_num

theorem evalAmtX : parseDecimal "1.125" = some (9/8) := by
  have h : parseDecCore (codes "1.125") = some (false, 1, 125, 3) := by decide
  rw [parseDecimal, h]
  norm_num

theorem evalAmtY : parseDecimal "0.875" = some (7/8) := by
  have h : parseDecCore (codes "0.875") = some (false, 0, 875, 3) := by decide
  rw [parseDecimal, h]
  norm_num

theorem evalDescAb : fuzzy_match_description "ab" "ab" = 1 := by
  have h1 : lowerCodes "ab" = [97, 98] := by decide
  have h2 : matchTotal [97, 98] [97, 98] = 2 := by decide
  rw [fuzzy_match_description, h1, seqMatchRatioOf]
  norm_num [h2]

/-- Candidate evaluation of `txnA` against itself under the default
engine: both hard filters pass, so the evaluation reaches the score line
and raises at the `Decimal`-times-float multiplication. -/
theorem evalCandAA : enhCandidate engA 1 19737 "ab" txnA = none := by
  rw [enhCandidate]
  have habs0 : |(1:ℚ) - 1| = 0 := by norm_num
  norm_num [txnA, engA, evalAmt100, evalDate15, habs0]

theorem txnP_amt : txnP.amount = "2.00" := rfl

theorem txnP_date : txnP.date = "2024-01-15" := rfl

theorem txnP_desc : txnP.description = "ab" := rfl

/-- Candidate evaluation of bank `txnA` against book `txnP`: the amount
difference 1.00 exceeds the 0.01 tolerance, so the candidate is skipped by
`continue` before the raising score line. -/
theorem evalCandAP : enhCandidate engA 1 19737 "ab" txnP = some none := by
  rw [enhCandidate]
  have habs : |(1:ℚ) - 2| = 1 := by rw [abs_sub_comm, abs_of_nonneg] <;> norm_num
  norm_num [txnP, engA, evalAmt200, evalDate15, habs]

theorem engA_thr : engA.description_match_threshold = 8/10 := rfl

theorem txnA_amt : txnA.amount = "1.00" := rfl

theorem txnA_date : txnA.date = "2024-01-15" := rfl

theorem txnA_desc : txnA.description = "ab" := rfl

/-- The pairwise loop on `[txnA]` vs `[txnA]` raises: the only candidate
passes both hard filters and reaches the broken score line. -/
theorem evalLoopAANone : enhLoop engA [txnA] (enumFrom 0 [txnA]) [] [] = none := by
  rw [enhLoop]
  norm_num [txnA_amt, txnA_date, txnA_desc, evalAmt100, evalDate15, enumFrom,
    enhSelect, evalCandAA]

/-- The full pairwise run on `[txnA]` vs `[txnA]` raises: a perfectly
parsable input is no protection once a candidate is amount- and
date-eligible. -/
theorem evalRunAANone : reconcile_transactions engA [txnA] [txnA] = none := by
  rw [reconcile_transactions, evalLoopAANone]

/-- The pairwise loop on `[txnA]` vs `[txnP]` completes: the single
candidate is rejected by the amount filter, nothing is scored, and the
bank record lands in `unmatched_bank`. -/
theorem evalLoopAP : enhLoop engA [txnA] (enumFrom 0 [txnP]) [] [] =
    some ([], [txnA], [(0, txnP)]) := by
  rw [enhLoop]
  norm_num [txnA_amt, txnA_date, txnA_desc, evalAmt100, evalDate15, enumFrom,
    enhSelect, evalCandAP, enhLoop]

/-- The full pairwise run on `[txnA]` vs `[txnP]`: a completed report with
zero matches and one unmatched record on each side. -/
theorem evalRunAP : reconcile_transactions engA [txnA] [txnP] =
    some ⟨.discrepancies, 1, 1, 0, 0, 1, [txnA], 1, [txnP], 1, 2, -1⟩ := by
  rw [reconcile_transactions, evalLoopAP]
  norm_num [sumAmounts, txnA_amt, txnP_amt, evalAmt100, evalAmt200]

/-- The default pairwise engine raises on an empty date string: the whole
run returns no report. -/
theorem evalRunBadDate : reconcile_transactions engA [txnBad] [] = none := by
  rw [reconcile_transactions]
  have h10 : parseDecimal "10" = some 10 := by
    have h : parseDecCore (codes "10") = some (false, 10, 0, 0) := by decide
    rw [parseDecimal, h]
    norm_num
  have hd : parseDate "" = none := by decide
  norm_num [enhLoop, txnBad, h10, hd]

/-- The bucket engine raises on a malformed amount string. -/
theorem evalSmartBadAmount : fuzzy_match_transactions [⟨"x", "", ""⟩] [] (1/100) = none := by
  rw [fuzzy_match_transactions]
  have hx : parseDecimal "x" = none := by decide
  norm_num [buildBookIndex, smartLoop, hx]

/-- An engine built with a negative amount tolerance, as the unvalidated
constructor happily produces. -/
def engN : EnhancedReconciliation := ⟨-1, 3, 8/10⟩

theorem engN_tol : engN.amount_tolerance = -1 := rfl

/-- An engine with a negative tolerance (no validation) runs to completion
and silently matches nothing: the amount filter rejects every candidate. -/
theorem evalRunNeg : reconcile_transactions engN [txnA] [txnA] =
    some ⟨.discrepancies, 1, 1, 0, 0, 1, [txnA], 1, [txnA], 1, 1, 0⟩ := by
  rw [reconcile_transactions]
  have hc : enhCandidate engN 1 19737 "ab" txnA = some none := by
    rw [enhCandidate]
    have habs0 : |(1:ℚ) - 1| = 0 := by norm_num
    norm_num [txnA, engN_tol, evalAmt100, evalDate15, habs0]
  norm_num [enhLoop, enhSelect, enumFrom, sumAmounts, txnA_amt, txnA_date, txnA_desc,
    evalAmt100, evalDate15, hc]

/-- Bucket score of bank 1.00 ("z") against book 1.125 ("x"): the
relative amount difference 0.125 equals the 0.125 tolerance (+0.6), the
dates coincide (+0.3) and no description word is shared — exactly 0.9.
Every quantity here is an exact binary fraction, so the program's float
arithmetic produces the identical comparisons (verified: both candidates
score float 0.8999999999999999 ≥ 0.85). -/
theorem evalScoreZX : calculate_match_score txnZ txnX (1/8) = some (9/10) := by
  rw [calculate_match_score]
  have hne : ("2024-01-15" = "") = False := by simp
  have hza : txnZ.amount = "1.00" := rfl
  have hxa : txnX.amount = "1.125" := rfl
  have hzd : txnZ.description = "z" := rfl
  have hxd : txnX.description = "x" := rfl
  have hlcz : lowerCodes "z" = [122] := by decide
  have hlcx : lowerCodes "x" = [120] := by decide
  have hwz : splitWords [122] = [[122]] := by decide
  have hwx : splitWords [120] = [[120]] := by decide
  have habs1 : |(1:ℚ)| = 1 := by rw [abs_of_nonneg]; norm_num
  have habsX : |(9:ℚ)/8| = 9/8 := by rw [abs_of_nonneg]; norm_num
  have habsd : |(1:ℚ) - 9/8| = 1/8 := by rw [abs_sub_comm, abs_of_nonneg] <;> norm_num
  have habs18 : |(1:ℚ)/8| = 1/8 := by rw [abs_of_nonneg]; norm_num
  have hzt : txnZ.date = "2024-01-15" := rfl
  have hxt : txnX.date = "2024-01-15" := rfl
  norm_num [hza, hxa, evalAmt100, evalAmtX, evalDate15, hne]
  norm_num [hzd, hxd, hzt, hxt, hlcz, hlcx, hwz, hwx, habs1, habsX, habsd, habs18,
    evalDate15, hne]

/-- Bucket score of bank 1.00 ("z") against book 0.875 ("y"): also
exactly 0.9 — a genuine composite-score tie with `txnX`, in the program's
float arithmetic as well. -/
theorem evalScoreZY : calculate_match_score txnZ txnY (1/8) = some (9/10) := by
  rw [calculate_match_score]
  have hne : ("2024-01-15" = "") = False := by simp
  have hza : txnZ.amount = "1.00" := rfl
  have hya : txnY.amount = "0.875" := rfl
  have hzd : txnZ.description = "z" := rfl
  have hyd : txnY.description = "y" := rfl
  have hlcz : lowerCodes "z" = [122] := by decide
  have hlcy : lowerCodes "y" = [121] := by decide
  have hwz : splitWords [122] = [[122]] := by decide
  have hwy : splitWords [121] = [[121]] := by decide
  have habs1 : |(1:ℚ)| = 1 := by rw [abs_of_nonneg]; norm_num
  have habsY : |(7:ℚ)/8| = 7/8 := by rw [abs_of_nonneg]; norm_num
  have habsd : |(1:ℚ) - 7/8| = 1/8 := by rw [abs_of_nonneg] <;> norm_num
  have habs18 : |(1:ℚ)/8| = 1/8 := by rw [abs_of_nonneg]; norm_num
  have hzt : txnZ.date = "2024-01-15" := rfl
  have hyt : txnY.date = "2024-01-15" := rfl
  norm_num [hza, hya, evalAmt100, evalAmtY, evalDate15, hne]
  norm_num [hzd, hyd, hzt, hyt, hlcz, hlcy, hwz, hwy, habs1, habsY, habsd, habs18,
    evalDate15, hne]

theorem evalBucketX : bucketOf (9/8) = 112 := by
  rw [bucketOf]
  have h1 : ((9:ℚ)/8) * 100 = 225/2 := by norm_num
  have hf : ⌊(225:ℚ)/2⌋ = 112 := by
    rw [Int.floor_eq_iff] <;> norm_num
  rw [h1, pyRound]
  norm_num [hf]

theorem evalBucketY : bucketOf (7/8) = 88 := by
  rw [bucketOf]
  have h1 : ((7:ℚ)/8) * 100 = 175/2 := by norm_num
  have hf : ⌊(175:ℚ)/2⌋ = 87 := by
    rw [Int.floor_eq_iff] <;> norm_num
  rw [h1, pyRound]
  norm_num [hf]

theorem evalTbZ : toleranceBuckets 1 (1/8) = 13 := by
  rw [toleranceBuckets, pyTrunc]
  have hf : ⌊(25:ℚ)/2⌋ = 12 := by
    rw [Int.floor_eq_iff] <;> norm_num
  norm_num [show (1:ℚ) * (1/8) * 100 = 25/2 by norm_num, hf]

/-- The bucket run on the tie: the scan visits bucket 88 before bucket
112, so the later-inserted book record (index 1) wins the tie and the
earlier-inserted one (index 0) is left unmatched.  (Verified against the
program: both candidates score the same float and index 1 matches.) -/
theorem evalSmartTie2 : fuzzy_match_transactions [txnZ] [txnX, txnY] (1/8) =
    some [⟨some txnZ, some txnY, some 1, 9/10, .matched⟩,
          ⟨none, some txnX, some 0, 0, .unmatched_book⟩] := by
  rw [fuzzy_match_transactions]
  have habs1 : |(1:ℚ)| = 1 := by rw [abs_of_nonneg]; norm_num
  have habsX : |(9:ℚ)/8| = 9/8 := by rw [abs_of_nonneg]; norm_num
  have habsY : |(7:ℚ)/8| = 7/8 := by rw [abs_of_nonneg]; norm_num
  have hza : txnZ.amount = "1.00" := rfl
  have hxa : txnX.amount = "1.125" := rfl
  have hya : txnY.amount = "0.875" := rfl
  have hb1 : bucketOf 1 = 100 := by
    rw [bucketOf, show (1:ℚ) * 100 = ((100:ℤ):ℚ) by norm_num, pyRound]
    norm_num
  norm_num [buildBookIndex, smartLoop, smartSelect, scannedCandidates, intRangeList,
    enumFrom, match_threshold, hza, hxa, hya, evalAmt100, evalAmtX, evalAmtY,
    evalScoreZX, evalScoreZY, habs1, habsX, habsY, hb1, evalBucketX,
    evalBucketY, evalTbZ]

/-- The two-candidate fold of the tie run in scanned order (bucket 88
before bucket 112): the first candidate wins and the equal-scoring second
cannot displace it. -/
theorem evalSelTie : smartSelect (1/8) txnZ [] [((1:ℕ), txnY), ((0:ℕ), txnX)] none 0 =
    some (some (1, txnY), 9/10) := by
  norm_num [smartSelect, evalScoreZY, evalScoreZX, match_threshold]

/-- Bucket score of `txnA` against itself: a perfect 1.0. -/
theorem evalScoreAA : calculate_match_score txnA txnA (1/100) = some 1 := by
  rw [calculate_match_score]
  have hne : ("2024-01-15" = "") = False := by simp
  have hlc : lowerCodes "ab" = [97, 98] := by decide
  have hw : splitWords [97, 98] = [[97, 98]] := by decide
  have habs1 : |(1:ℚ)| = 1 := by rw [abs_of_nonneg]; norm_num
  have hnil : ([97, 98] = ([] : List ℕ)) = False := by simp
  norm_num [txnA, evalAmt100, evalDate15, hne]
  norm_num [txnA_desc, hlc, hw, hnil, habs1]

/-- Bucket score of bank −1.00 against book +1.00: the absolute amounts
coincide, so the matcher sees a perfect 1.0 despite the signed amounts
differing by 2. -/
theorem evalScoreNA : calculate_match_score txnN txnA (1/100) = some 1 := by
  rw [calculate_match_score]
  have hne : ("2024-01-15" = "") = False := by simp
  have hlc : lowerCodes "ab" = [97, 98] := by decide
  have hw : splitWords [97, 98] = [[97, 98]] := by decide
  have habs1 : |(1:ℚ)| = 1 := by rw [abs_of_nonneg]; norm_num
  have habsn1 : |(-1:ℚ)| = 1 := by rw [abs_of_nonpos] <;> norm_num
  have hnil : ([97, 98] = ([] : List ℕ)) = False := by simp
  have hnd : txnN.description = "ab" := rfl
  norm_num [txnN, txnA, evalAmtN100, evalAmt100, evalDate15, hne]
  norm_num [hnd, txnA_desc, hlc, hw, hnil, habs1, habsn1]

theorem evalBucket1 : bucketOf 1 = 100 := by
  rw [bucketOf, show (1:ℚ) * 100 = ((100:ℤ):ℚ) by norm_num, pyRound]
  norm_num

theorem evalTb1 : toleranceBuckets 1 (1/100) = 2 := by
  rw [toleranceBuckets, pyTrunc]
  norm_num

/-- The bucket run on `[txnA]` vs `[txnA]`: one perfect match. -/
theorem evalSmartAA : fuzzy_match_transactions [txnA] [txnA] (1/100) =
    some [⟨some txnA, some txnA, some 0, 1, .matched⟩] := by
  rw [fuzzy_match_transactions]
  have habs1 : |(1:ℚ)| = 1 := by rw [abs_of_nonneg]; norm_num
  norm_num [buildBookIndex, smartLoop, smartSelect, scannedCandidates, intRangeList,
    enumFrom, match_threshold, txnA_amt, evalAmt100, evalScoreAA, habs1,
    evalBucket1, evalTb1]

/-- The bucket run on `[txnN]` (bank −1.00) vs `[txnA]` (book +1.00): the
opposite-sign pair is committed as a perfect match. -/
theorem evalSmartNA : fuzzy_match_transactions [txnN] [txnA] (1/100) =
    some [⟨some txnN, some txnA, some 0, 1, .matched⟩] := by
  rw [fuzzy_match_transactions]
  have habs1 : |(1:ℚ)| = 1 := by rw [abs_of_nonneg]; norm_num
  have habsn1 : |(-1:ℚ)| = 1 := by rw [abs_of_nonpos] <;> norm_num
  have hn : txnN.amount = "-1.00" := rfl
  norm_num [buildBookIndex, smartLoop, smartSelect, scannedCandidates, intRangeList,
    enumFrom, match_threshold, txnA_amt, hn, evalAmt100, evalAmtN100, evalScoreNA,
    habs1, habsn1, evalBucket1, evalTb1]

/-- Transaction with amount −2 for the suggestion-engine evaluations. -/
def txnM2 : RawTxn := ⟨"-2", "2024-01-15", "ab"⟩

/-- The candidate with amount −1. -/
def txnM1 : RawTxn := ⟨"-1", "2024-01-15", "ab"⟩

/-- A far-away candidate: amount −5, same date and description. -/
def txnF : RawTxn := ⟨"-5.00", "2024-01-15", "ab"⟩

theorem evalAmtM2 : parseDecimal "-2" = some (-2) := by
  have h : parseDecCore (codes "-2") = some (true, 2, 0, 0) := by decide
  rw [parseDecimal, h]
  norm_num

theorem evalAmtM1 : parseDecimal "-1" = some (-1) := by
  have h : parseDecCore (codes "-1") = some (true, 1, 0, 0) := by decide
  rw [parseDecimal, h]
  norm_num

theorem evalAmtM5 : parseDecimal "-5.00" = some (-5) := by
  have h : parseDecCore (codes "-5.00") = some (true, 5, 0, 2) := by decide
  rw [parseDecimal, h]
  norm_num

/-- The suggestion scorer raises on txn −2 against candidate −1:
`max(-2, -1)` is the `Decimal` −1, the amount quotient is the `Decimal`
−1 ≤ 1, so `min` keeps the `Decimal` and line 195 multiplies it by the
float 0.3 — `TypeError`. -/
theorem evalPairM : suggestPairScores (-2) 19737 "ab" txnM1 = none := by
  rw [suggestPairScores]
  have hm : max (-2 : ℚ) (-1) = -1 := by norm_num
  have habs : |(-2 : ℚ) - -1| = 1 := by rw [abs_of_nonpos] <;> norm_num
  have hd : txnM1.date = "2024-01-15" := rfl
  have ha : txnM1.amount = "-1" := rfl
  norm_num [ha, hd, evalAmtM1, evalDate15, hm, habs]

/-- The full suggestion call on the negative pair raises: no suggestion
list is returned at all, let alone one with out-of-range scores. -/
theorem evalSuggestNeg : suggest_matches txnM2 [txnM1] = none := by
  rw [suggest_matches]
  have ha : txnM2.amount = "-2" := rfl
  have hd : txnM2.date = "2024-01-15" := rfl
  have hds : txnM2.description = "ab" := rfl
  norm_num [ha, hd, hds, evalAmtM2, evalDate15, suggestLoop, evalPairM]

/-- A positive pair raises too: txn 2 against candidate 1.00 has amount
quotient 1/2 ≤ 1, so the amount sub-score stays a `Decimal` and line 195
raises. -/
theorem evalPairPosNone : suggestPairScores 2 19737 "ab" txnA = none := by
  rw [suggestPairScores]
  have hm : max (2 : ℚ) 1 = 2 := by norm_num
  have habs : |(2 : ℚ) - 1| = 1 := by rw [abs_of_nonneg] <;> norm_num
  norm_num [txnA_amt, txnA_date, evalAmt100, evalDate15, hm, habs]

/-- A suggestion evaluation that completes: txn 1 against candidate −5 has
amount quotient 6 > 1, `min` returns the int 1 and the amount sub-score is
the int 0, so line 195 computes `0 * 0.3` without error.  Composite
`1·0.5 + 0·0.3 + 1·0.2 = 0.7`. -/
theorem evalPairFar : suggestPairScores 1 19737 "ab" txnF = some (7/10, 0, 1, 1) := by
  rw [suggestPairScores]
  have hm : max (1 : ℚ) (-5) = 1 := by norm_num
  have habs : |(1 : ℚ) - -5| = 6 := by rw [abs_of_nonneg] <;> norm_num
  have ha : txnF.amount = "-5.00" := rfl
  have hd : txnF.date = "2024-01-15" := rfl
  have hds : txnF.description = "ab" := rfl
  norm_num [ha, hd, hds, evalAmtM5, evalDate15, hm, habs, evalDescAb]

/-- The completing suggestion call: one entry, confidence 0.7, amount
sub-score 0. -/
theorem evalSuggestFar : suggest_matches txnA [txnF] = some [⟨txnF, 7/10, 1, 0, 1⟩] := by
  rw [suggest_matches]
  have hr7 : pyRound2 (7/10) = 7/10 := by
    rw [pyRound2, show (7:ℚ)/10 * 100 = ((70:ℤ):ℚ) by norm_num, pyRound]
    norm_num
  have hr1 : pyRound2 1 = 1 := by
    rw [pyRound2, show (1:ℚ) * 100 = ((100:ℤ):ℚ) by norm_num, pyRound]
    norm_num
  have hr0 : pyRound2 0 = 0 := by
    rw [pyRound2, show (0:ℚ) * 100 = ((0:ℤ):ℚ) by norm_num, pyRound]
    norm_num
  norm_num [txnA_amt, txnA_date, txnA_desc, evalAmt100, evalDate15, suggestLoop,
    evalPairFar, insertDescending, hr7, hr1, hr0]

/-- Record used for the truncation run: amount 1, valid date. -/
def txnS : RawTxn := ⟨"1", "2024-01-15", "a"⟩

theorem evalAmtS : parseDecimal "1" = some 1 := by
  have h : parseDecCore (codes "1") = some (false, 1, 0, 0) := by decide
  rw [parseDecimal, h]
  norm_num

/-- Eleven bank records against an empty book list: all eleven land in
`unmatched_bank`. -/
theorem evalLoopEleven : enhLoop engA (List.replicate 11 txnS) (enumFrom 0 []) [] [] =
    some ([], List.replicate 11 txnS, []) := by
  rw [show enumFrom 0 [] = [] from rfl]
  have hs : txnS.amount = "1" := rfl
  have hd : txnS.date = "2024-01-15" := rfl
  norm_num [enhLoop, enhSelect, List.replicate, hs, hd, evalAmtS, evalDate15]

/-- The full pairwise run of the truncation scenario: eleven unmatched
bank records, but only ten listed. -/
theorem evalRunEleven : reconcile_transactions engA (List.replicate 11 txnS) [] =
    some ⟨.discrepancies, 11, 0, 0, 0, 11, List.replicate 10 txnS, 0, [], 11, 0, 11⟩ := by
  rw [reconcile_transactions, evalLoopEleven]
  have hs : txnS.amount = "1" := rfl
  norm_num [sumAmounts, enumFrom, List.replicate, hs, evalAmtS]

/-- C2: no book record is committed twice in one run — the book-side
assignment is injective — in both engines: the pairwise loop's matches
carry pairwise-distinct book indices, and so do the bucket engine's
matched entries. -/
theorem C2_book_injectivity :
    (∀ (eng : EnhancedReconciliation) (bank book : List RawTxn)
       (ms : List EnhMatch) (ub : List RawTxn) (live : List (ℕ × RawTxn)),
      enhLoop eng bank (enumFrom 0 book) [] [] = some (ms, ub, live) →
      (ms.map (·.book_index)).Nodup) ∧
    (∀ (tol : ℚ) (bank book : List RawTxn) (entries : List SmartEntry),
      fuzzy_match_transactions bank book tol = some entries →
      ((entries.filter (fun e => e.status == SmartStatus.matched)).map
        (·.book_index)).Nodup) := by
  constructor
  · intro eng bank book ms ub live h
    have hms : ms = [] :=
      congrArg Prod.fst (enhLoop_spec eng bank (enumFrom 0 book) [] [] (ms, ub, live) h)
    subst hms
    simp
  · intro tol bank book entries h
    unfold fuzzy_match_transactions at h
    rcases hI : buildBookIndex 0 book with _ | index
    · rw [hI] at h; exact Option.noConfusion h
    rw [hI] at h
    simp only at h
    rcases hL : smartLoop tol index bank [] [] [] with _ | out
    · rw [hL] at h; exact Option.noConfusion h
    rcases out with ⟨ms, ub, matched⟩
    rw [hL] at h
    simp only [Option.some.injEq] at h
    subst h
    have spec := smartLoop_spec tol index bank [] [] [] (ms, ub, matched) hL (by simp)
      (by simp) (by simp)
    simp only at spec
    have hnd : (ms.map (fun m => m.book_index)).Nodup := spec.1 ▸ spec.2.1
    have hb1 : (SmartStatus.matched == SmartStatus.matched) = true := rfl
    have hb2 : (SmartStatus.unmatched_bank == SmartStatus.matched) = false := rfl
    have hb3 : (SmartStatus.unmatched_book == SmartStatus.matched) = false := rfl
    simp only [List.filter_append, List.filter_map, Function.comp_def, hb1, hb2, hb3,
      List.filter_true, List.filter_false, List.map_nil, List.append_nil, List.map_map]
    have hms : List.map (fun x : SmartMatched => some x.book_index) ms =
        List.map some (List.map (fun m : SmartMatched => m.book_index) ms) := by
      simp
    rw [hms]
    exact hnd.map (Option.some_injective ℕ)

/-- C10: the report lists at most the first ten unmatched records on each
side while the counts carry the full totals, so with more than ten
unmatched the listed transactions are strictly fewer than the count. -/
theorem C10_report_truncation :
    ∀ (eng : EnhancedReconciliation) (bank book : List RawTxn)
      (ms : List EnhMatch) (ub : List RawTxn) (live : List (ℕ × RawTxn)) (r : EnhReport),
    enhLoop eng bank (enumFrom 0 book) [] [] = some (ms, ub, live) →
    reconcile_transactions eng bank book = some r →
    r.unmatched_bank_count = ub.length ∧
    r.unmatched_bank_transactions = ub.take 10 ∧
    r.unmatched_book_count = live.length ∧
    r.unmatched_book_transactions = (live.map (·.2)).take 10 ∧
    (10 < ub.length → r.unmatched_bank_transactions.length < r.unmatched_bank_count) ∧
    (10 < live.length → r.unmatched_book_transactions.length < r.unmatched_book_count) := by
  intro eng bank book ms ub live r h1 h2
  unfold reconcile_transactions at h2
  rw [h1] at h2
  simp only at h2
  rcases hS1 : sumAmounts bank with _ | s1
  · rw [hS1] at h2; exact Option.noConfusion h2
  rw [hS1] at h2
  rcases hS2 : sumAmounts book with _ | s2
  · rw [hS2] at h2; exact Option.noConfusion h2
  rw [hS2] at h2
  rcases hS3 : sumAmounts (ms.map (fun m => m.bank_transaction)) with _ | s3
  · rw [hS3] at h2; exact Option.noConfusion h2
  rw [hS3] at h2
  simp only [Option.some.injEq] at h2
  subst h2
  refine ⟨rfl, rfl, rfl, rfl, ?_, ?_⟩
  · intro hgt
    simp only [List.length_take]
    omega
  · intro hgt
    simp only [List.length_take, List.length_map]
    omega

/-- Witness for C1 at concrete one-record inputs on both engines (the
pairwise run completes because its only candidate is amount-filtered). -/
theorem C1_partition_exact_witness :
    ((⟨.discrepancies, 1, 1, 0, 0, 1, [txnA], 1, [txnP], 1, 2, -1⟩ : EnhReport).matched_count +
        (⟨.discrepancies, 1, 1, 0, 0, 1, [txnA], 1, [txnP], 1, 2, -1⟩ :
          EnhReport).unmatched_bank_count = [txnA].length ∧
      (⟨.discrepancies, 1, 1, 0, 0, 1, [txnA], 1, [txnP], 1, 2, -1⟩ : EnhReport).matched_count +
        (⟨.discrepancies, 1, 1, 0, 0, 1, [txnA], 1, [txnP], 1, 2, -1⟩ :
          EnhReport).unmatched_book_count = [txnP].length) ∧
    (([⟨some txnA, some txnA, some 0, 1, .matched⟩] : List SmartEntry).countP
        (fun e => e.status == SmartStatus.matched) +
      ([⟨some txnA, some txnA, some 0, 1, .matched⟩] : List SmartEntry).countP
        (fun e => e.status == SmartStatus.unmatched_bank) = [txnA].length ∧
      ([⟨some txnA, some txnA, some 0, 1, .matched⟩] : List SmartEntry).countP
        (fun e => e.status == SmartStatus.matched) +
      ([⟨some txnA, some txnA, some 0, 1, .matched⟩] : List SmartEntry).countP
        (fun e => e.status == SmartStatus.unmatched_book) = [txnA].length) :=
  ⟨C1_partition_exact.1 engA [txnA] [txnP] _ evalRunAP,
   C1_partition_exact.2 (1/100) [txnA] [txnA] _ evalSmartAA⟩

/-- Witness for C2 at concrete one-record inputs on both engines. -/
theorem C2_book_injectivity_witness :
    (([] : List EnhMatch).map (·.book_index)).Nodup ∧
    ((([⟨some txnA, some txnA, some 0, 1, .matched⟩] : List SmartEntry).filter
        (fun e => e.status == SmartStatus.matched)).map (·.book_index)).Nodup :=
  ⟨C2_book_injectivity.1 engA [txnA] [txnP] [] [txnA] [(0, txnP)] evalLoopAP,
   C2_book_injectivity.2 (1/100) [txnA] [txnA] _ evalSmartAA⟩

/-- Witness for C10 on an eleven-record input: only ten transactions are
listed while the count reports eleven. -/
theorem C10_report_truncation_witness :
    (⟨.discrepancies, 11, 0, 0, 0, 11, List.replicate 10 txnS, 0, [], 11, 0, 11⟩ :
        EnhReport).unmatched_bank_transactions.length <
      (⟨.discrepancies, 11, 0, 0, 0, 11, List.replicate 10 txnS, 0, [], 11, 0, 11⟩ :
        EnhReport).unmatched_bank_count :=
  (C10_report_truncation engA (List.replicate 11 txnS) [] [] (List.replicate 11 txnS) [] _
    evalLoopEleven evalRunEleven).2.2.2.2.1 (by simp)

/-- C3 counterexample: in the bucket engine, bank 1.00 ties two
candidates at score 0.9 ≥ 0.85; the loser (`txnX`, inserted first) was
considered, amount-eligible and scored at the threshold, yet ends
unmatched — refuting "every candidate considered but not matched either
scored below the acceptance threshold or was amount-ineligible". -/
theorem C3_threshold_counterexample :
    fuzzy_match_transactions [txnZ] [txnX, txnY] (1/8) =
      some [⟨some txnZ, some txnY, some 1, 9/10, .matched⟩,
            ⟨none, some txnX, some 0, 0, .unmatched_book⟩] ∧
    calculate_match_score txnZ txnX (1/8) = some (9/10) ∧
    match_threshold ≤ (9:ℚ)/10 ∧
    abs (|(1:ℚ)| - |(9:ℚ)/8|) ≤ (1/8) * |(1:ℚ)| := by
  refine ⟨evalSmartTie2, evalScoreZX, by rw [match_threshold]; norm_num, ?_⟩
  have h1 : |(1:ℚ)| = 1 := by rw [abs_of_nonneg]; norm_num
  have h2 : |(9:ℚ)/8| = 9/8 := by rw [abs_of_nonneg]; norm_num
  rw [h1, h2, abs_sub_comm, abs_of_nonneg] <;> norm_num

/-- C3 (amended): the bucket engine does require every matched entry's
score to clear its 0.85 threshold; the pairwise engine commits no matches
at all in completed runs — a candidate eligible for scoring raises at the
score line — so its acceptance threshold never gates a commit. -/
theorem C3_threshold_amended :
    (∀ (eng : EnhancedReconciliation) (bank book : List RawTxn)
       (ms : List EnhMatch) (ub : List RawTxn) (live : List (ℕ × RawTxn)),
      enhLoop eng bank (enumFrom 0 book) [] [] = some (ms, ub, live) → ms = []) ∧
    (∀ (tol : ℚ) (bank book : List RawTxn) (entries : List SmartEntry),
      fuzzy_match_transactions bank book tol = some entries →
      ∀ e ∈ entries, e.status = SmartStatus.matched →
        match_threshold ≤ e.match_score) := by
  constructor
  · intro eng bank book ms ub live h
    exact congrArg Prod.fst (enhLoop_spec eng bank (enumFrom 0 book) [] [] (ms, ub, live) h)
  · intro tol bank book entries h e he hst
    unfold fuzzy_match_transactions at h
    rcases hI : buildBookIndex 0 book with _ | index
    · rw [hI] at h; exact Option.noConfusion h
    rw [hI] at h
    simp only at h
    rcases hL : smartLoop tol index bank [] [] [] with _ | out
    · rw [hL] at h; exact Option.noConfusion h
    rcases out with ⟨ms, ub, matched⟩
    rw [hL] at h
    simp only [Option.some.injEq] at h
    subst h
    have spec := smartLoop_spec tol index bank [] [] [] (ms, ub, matched) hL (by simp)
      (by simp) (by simp)
    simp only at spec
    simp only [List.mem_append, List.mem_map] at he
    rcases he with (⟨m, hm, rfl⟩ | ⟨t, ht, rfl⟩) | ⟨p, hp, rfl⟩
    · rcases spec.2.2.2.2 m hm with h0 | hp
      · exact absurd h0 (by simp)
      · exact hp.2.1
    · exact absurd hst (by simp)
    · exact absurd hst (by simp)

/-- Witness for the amended C3 on concrete runs of both engines. -/
theorem C3_threshold_amended_witness :
    ([] : List EnhMatch) = [] ∧
    match_threshold ≤ (⟨some txnA, some txnA, some 0, 1, .matched⟩ : SmartEntry).match_score :=
  ⟨C3_threshold_amended.1 engA [txnA] [txnP] [] [txnA] [(0, txnP)] evalLoopAP,
   C3_threshold_amended.2 (1/100) [txnA] [txnA] _ evalSmartAA _ (List.mem_singleton_self _) rfl⟩

/-- C4 counterexample: the bucket engine matches a bank amount of -1.00
with a book amount of +1.00 (it compares absolute values), although the
two amounts differ by 2.00 — far outside the 0.01 tolerance window. -/
theorem C4_tolerance_counterexample :
    fuzzy_match_transactions [txnN] [txnA] (1/100) =
      some [⟨some txnN, some txnA, some 0, 1, .matched⟩] ∧
    parseDecimal txnN.amount = some (-1) ∧ parseDecimal txnA.amount = some 1 ∧
    ¬ (|(-1 : ℚ) - 1| ≤ 1/100) := by
  refine ⟨evalSmartNA, evalAmtN100, evalAmt100, ?_⟩
  rw [show ((-1 : ℚ) - 1) = -2 by norm_num, abs_neg, abs_of_nonneg (by norm_num : (0:ℚ) ≤ 2)]
  norm_num

/-- C4 (amended): the bucket engine only bounds the relative difference
of the records' absolute amounts.  The pairwise engine's hard window is
never overridden — vacuously: a candidate inside the window reaches the
score line and raises, so completed runs commit no matches at all, and
every (nonexistent) committed match trivially satisfies the window. -/
theorem C4_tolerance_amended :
    (∀ (eng : EnhancedReconciliation) (bank book : List RawTxn)
       (ms : List EnhMatch) (ub : List RawTxn) (live : List (ℕ × RawTxn)),
      enhLoop eng bank (enumFrom 0 book) [] [] = some (ms, ub, live) →
      ∀ m ∈ ms, ∃ ba ka, parseDecimal m.bank_transaction.amount = some ba ∧
        parseDecimal m.book_transaction.amount = some ka ∧
        |ba - ka| ≤ eng.amount_tolerance) ∧
    (∀ (tol : ℚ) (bank book : List RawTxn) (entries : List SmartEntry),
      fuzzy_match_transactions bank book tol = some entries →
      ∀ e ∈ entries, e.status = SmartStatus.matched →
      ∀ bt kt, e.bank_transaction = some bt → e.book_transaction = some kt →
      ∃ ba ka, parseDecimal bt.amount = some ba ∧ parseDecimal kt.amount = some ka ∧
        0 < |ba| ∧ abs (|ba| - |ka|) ≤ tol * |ba|) := by
  constructor
  · intro eng bank book ms ub live h m hm
    have hms : ms = [] :=
      congrArg Prod.fst (enhLoop_spec eng bank (enumFrom 0 book) [] [] (ms, ub, live) h)
    subst hms
    simp at hm
  · intro tol bank book entries h e he hst bt kt hbt hkt
    unfold fuzzy_match_transactions at h
    rcases hI : buildBookIndex 0 book with _ | index
    · rw [hI] at h; exact Option.noConfusion h
    rw [hI] at h
    simp only at h
    rcases hL : smartLoop tol index bank [] [] [] with _ | out
    · rw [hL] at h; exact Option.noConfusion h
    rcases out with ⟨ms, ub, matched⟩
    rw [hL] at h
    simp only [Option.some.injEq] at h
    subst h
    have spec := smartLoop_spec tol index bank [] [] [] (ms, ub, matched) hL (by simp)
      (by simp) (by simp)
    simp only at spec
    simp only [List.mem_append, List.mem_map] at he
    rcases he with (⟨m, hm, rfl⟩ | ⟨t, ht, rfl⟩) | ⟨p, hp, rfl⟩
    · rcases spec.2.2.2.2 m hm with h0 | hp'
      · exact absurd h0 (by simp)
      obtain rfl : m.bank_transaction = bt := by simpa using hbt
      obtain rfl : m.book_transaction = kt := by simpa using hkt
      exact calculate_match_score_threshold_amount hp'.1 hp'.2.1
    · exact absurd hst (by simp)
    · exact absurd hst (by simp)

/-- Witness for the amended C4: the pairwise conjunct is witnessed (vacuously)
at a completed run, the bucket conjunct at the opposite-sign match. -/
theorem C4_tolerance_amended_witness :
    (∀ m ∈ ([] : List EnhMatch), ∃ ba ka,
      parseDecimal m.bank_transaction.amount = some ba ∧
      parseDecimal m.book_transaction.amount = some ka ∧
      |ba - ka| ≤ engA.amount_tolerance) ∧
    (∃ ba ka, parseDecimal txnN.amount = some ba ∧ parseDecimal txnA.amount = some ka ∧
      0 < |ba| ∧ abs (|ba| - |ka|) ≤ (1/100) * |ba|) :=
  ⟨C4_tolerance_amended.1 engA [txnA] [txnP] [] [txnA] [(0, txnP)] evalLoopAP,
   C4_tolerance_amended.2 (1/100) [txnN] [txnA] _ evalSmartNA _ (List.mem_singleton_self _)
     rfl txnN txnA rfl rfl⟩

/-- C5 counterexample: whole runs abort.  The pairwise engine raises on
an unparsable date, and raises even on a perfectly parsable input whose
single candidate passes the hard filters; the bucket engine raises on an
unparsable amount.  Nothing is excluded or reported per-record. -/
theorem C5_error_handling_counterexample :
    reconcile_transactions engA [txnBad] [] = none ∧
    reconcile_transactions engA [txnA] [txnA] = none ∧
    fuzzy_match_transactions [⟨"x", "", ""⟩] [] (1/100) = none :=
  ⟨evalRunBadDate, evalRunAANone, evalSmartBadAmount⟩

/-- C5 (amended): the pairwise run completes exactly when every book
amount parses and every bank record parses with all its candidates
rejected by the amount or date filter — an unparsable record, or any
amount- and date-eligible candidate, aborts the whole batch with no
per-record recovery.  The bucket run completes whenever amounts parse and
dates parse or are empty. -/
theorem C5_error_handling_amended :
    (∀ (eng : EnhancedReconciliation) (bank book : List RawTxn),
      (reconcile_transactions eng bank book).isSome ↔
        ((∀ t ∈ book, (parseDecimal t.amount).isSome) ∧
          ∀ b ∈ bank, ∃ ba bd, parseDecimal b.amount = some ba ∧
            parseDate b.date = some bd ∧
            ∀ p ∈ enumFrom 0 book, enhCandidate eng ba bd b.description p.2 = some none)) ∧
    (∀ (bank book : List RawTxn) (tol : ℚ),
      (∀ t ∈ bank ++ book, (parseDecimal t.amount).isSome ∧
        (t.date = "" ∨ (parseDate t.date).isSome)) →
      (fuzzy_match_transactions bank book tol).isSome) :=
  ⟨reconcile_transactions_isSome_iff,
   fun bank book tol hall => fuzzy_match_transactions_isSome bank book tol hall⟩

/-- Witness for the amended C5: the [txnA] vs [txnP] pairwise run
completes (its only candidate is amount-filtered), and the bucket run on
parsable records completes. -/
theorem C5_error_handling_amended_witness :
    (reconcile_transactions engA [txnA] [txnP]).isSome = true ∧
    (fuzzy_match_transactions [txnA] [txnA] (1/100)).isSome = true := by
  constructor
  · refine (C5_error_handling_amended.1 engA [txnA] [txnP]).mpr ⟨?_, ?_⟩
    · intro t ht
      have : t = txnP := by simpa using ht
      subst this
      rw [txnP_amt, evalAmt200]
      rfl
    · intro b hb
      have : b = txnA := by simpa using hb
      subst this
      refine ⟨1, 19737, by rw [txnA_amt]; exact evalAmt100,
        by rw [txnA_date]; exact evalDate15, ?_⟩
      intro p hp
      have : p = (0, txnP) := by simpa [enumFrom] using hp
      subst this
      rw [txnA_desc]
      exact evalCandAP
  · refine C5_error_handling_amended.2 [txnA] [txnA] (1/100) ?_
    intro t ht
    have : t = txnA := by
      simp only [List.mem_append, List.mem_singleton] at ht
      rcases ht with rfl | rfl <;> rfl
    subst this
    exact ⟨by rw [txnA_amt, evalAmt100]; rfl, Or.inr (by rw [txnA_date, evalDate15]; rfl)⟩

/-- The bucket fold's argmax characterization: a completed `smartSelect`
either returns its accumulator (and then no unconsumed candidate beats it),
or its winner splits the scanned candidate list so that every unconsumed
eligible candidate before it scores strictly less and every one after it
scores at most the winning score — first-best in scan order. -/
theorem smartSelect_argmax (tol : ℚ) (bank : RawTxn) (matched : List ℕ) :
    ∀ (cands : List (ℕ × RawTxn)) (best : Option (ℕ × RawTxn)) (bs : ℚ)
      (out : Option (ℕ × RawTxn) × ℚ),
    smartSelect tol bank matched cands best bs = some out →
    (out = (best, bs) ∧
      ∀ c ∈ cands, c.1 ∉ matched → ∀ s, calculate_match_score bank c.2 tol = some s →
        match_threshold ≤ s → s ≤ bs)
    ∨ (∃ pre c post, cands = pre ++ c :: post ∧ out.1 = some c ∧ bs < out.2 ∧
        c.1 ∉ matched ∧ calculate_match_score bank c.2 tol = some out.2 ∧
        match_threshold ≤ out.2 ∧
        (∀ c' ∈ pre, c'.1 ∉ matched → ∀ s', calculate_match_score bank c'.2 tol = some s' →
          match_threshold ≤ s' → s' < out.2) ∧
        (∀ c' ∈ post, c'.1 ∉ matched → ∀ s', calculate_match_score bank c'.2 tol = some s' →
          match_threshold ≤ s' → s' ≤ out.2)) := by
  intro cands
  induction cands with
  | nil =>
    intro best bs out h
    simp only [smartSelect, Option.some.injEq] at h
    exact Or.inl ⟨h.symm, by simp⟩
  | cons c rest ih =>
    intro best bs out h
    rw [smartSelect] at h
    by_cases hskip : c.1 ∈ matched
    · rw [if_pos hskip] at h
      rcases ih best bs out h with ⟨hout, hbound⟩ |
        ⟨pre, c', post, hsplit, h1, h2, h3, h4, h5, h6, h7⟩
      · refine Or.inl ⟨hout, ?_⟩
        intro c'' hmem hnm s hcand hthr
        rcases List.mem_cons.mp hmem with rfl | hmem'
        · exact absurd hskip hnm
        · exact hbound c'' hmem' hnm s hcand hthr
      · refine Or.inr ⟨c :: pre, c', post, by rw [hsplit]; rfl, h1, h2, h3, h4, h5, ?_, h7⟩
        intro c'' hmem hnm s' hcand hthr
        rcases List.mem_cons.mp hmem with rfl | hmem'
        · exact absurd hskip hnm
        · exact h6 c'' hmem' hnm s' hcand hthr
    · rw [if_neg hskip] at h
      rcases hc : calculate_match_score bank c.2 tol with _ | score
      · rw [hc] at h; exact Option.noConfusion h
      rw [hc] at h
      simp only at h
      by_cases hg : bs < score ∧ match_threshold ≤ score
      · rw [if_pos hg] at h
        rcases ih (some c) score out h with ⟨hout, hbound⟩ |
          ⟨pre, c', post, hsplit, h1, h2, h3, h4, h5, h6, h7⟩
        · refine Or.inr ⟨[], c, rest, rfl, by rw [hout], by rw [hout]; exact hg.1, hskip,
            by rw [hout]; exact hc, by rw [hout]; exact hg.2, by simp, ?_⟩
          intro c'' hmem hnm s' hcand hthr
          rw [hout]
          exact hbound c'' hmem hnm s' hcand hthr
        · refine Or.inr ⟨c :: pre, c', post, by simp [hsplit], h1,
            lt_trans hg.1 h2, h3, h4, h5, ?_, h7⟩
          intro c'' hmem hnm s' hcand hthr
          rcases List.mem_cons.mp hmem with rfl | hmem'
          · rw [hc] at hcand
            have heq : score = s' := by simpa using hcand
            exact heq ▸ h2
          · exact h6 c'' hmem' hnm s' hcand hthr
      · rw [if_neg hg] at h
        rcases ih best bs out h with ⟨hout, hbound⟩ |
          ⟨pre, c', post, hsplit, h1, h2, h3, h4, h5, h6, h7⟩
        · refine Or.inl ⟨hout, ?_⟩
          intro c'' hmem hnm s' hcand hthr
          rcases List.mem_cons.mp hmem with rfl | hmem'
          · rw [hc] at hcand
            have heq : score = s' := by simpa using hcand
            have hns : ¬ bs < score := fun hlt => hg ⟨hlt, heq.symm ▸ hthr⟩
            exact heq ▸ not_lt.mp hns
          · exact hbound c'' hmem' hnm s' hcand hthr
        · refine Or.inr ⟨c :: pre, c', post, by simp [hsplit], h1, h2, h3, h4, h5, ?_, h7⟩
          intro c'' hmem hnm s' hcand hthr
          rcases List.mem_cons.mp hmem with rfl | hmem'
          · rw [hc] at hcand
            have heq : score = s' := by simpa using hcand
            have hns : ¬ bs < score := fun hlt => hg ⟨hlt, heq.symm ▸ hthr⟩
            exact lt_of_le_of_lt (heq ▸ not_lt.mp hns) h2
          · exact h6 c'' hmem' hnm s' hcand hthr

/-- C6 counterexample: bank 1.00 ties at score 0.9 against book records
1.125 (inserted first, bucket 112) and 0.875 (inserted second, bucket 88);
the bucket scan visits bucket 88 first, so the *later-inserted* book
record wins the tie, contradicting earliest-insertion-order tie-breaking.
All quantities are exact binary fractions, so the program's float run
behaves identically (verified: both score 0.8999999999999999, index 1
matches). -/
theorem C6_tie_break_counterexample :
    calculate_match_score txnZ txnX (1/8) = some (9/10) ∧
    calculate_match_score txnZ txnY (1/8) = some (9/10) ∧
    fuzzy_match_transactions [txnZ] [txnX, txnY] (1/8) =
      some [⟨some txnZ, some txnY, some 1, 9/10, .matched⟩,
            ⟨none, some txnX, some 0, 0, .unmatched_book⟩] :=
  ⟨evalScoreZX, evalScoreZY, evalSmartTie2⟩

/-- C6 (amended): the bucket engine selects the strictly best-scoring
unconsumed candidate in *scan order* — ascending bucket value, not book
insertion order — and a tie never displaces the earlier-scanned winner.
(The pairwise engine selects nothing at all: an eligible candidate raises
before any comparison.) -/
theorem C6_tie_break_amended :
    ∀ (tol : ℚ) (bank : RawTxn) (matched : List ℕ) (cands : List (ℕ × RawTxn))
      (out : Option (ℕ × RawTxn) × ℚ),
    smartSelect tol bank matched cands none 0 = some out →
    ∀ c, out.1 = some c →
    ∃ pre post, cands = pre ++ c :: post ∧ c.1 ∉ matched ∧
      calculate_match_score bank c.2 tol = some out.2 ∧ match_threshold ≤ out.2 ∧
      (∀ c' ∈ pre, c'.1 ∉ matched → ∀ s', calculate_match_score bank c'.2 tol = some s' →
        match_threshold ≤ s' → s' < out.2) ∧
      (∀ c' ∈ post, c'.1 ∉ matched → ∀ s', calculate_match_score bank c'.2 tol = some s' →
        match_threshold ≤ s' → s' ≤ out.2) := by
  intro tol bank matched cands out h c hc
  rcases smartSelect_argmax tol bank matched cands none 0 out h with
    ⟨hout, _⟩ | ⟨pre, c', post, hsplit, h1, _, h3, h4, h5, h6, h7⟩
  · rw [hout] at hc; exact Option.noConfusion hc
  · have hcc : c = c' := by rw [h1] at hc; exact (Option.some.inj hc).symm
    subst hcc
    exact ⟨pre, post, hsplit, h3, h4, h5, h6, h7⟩

/-- Witness for the amended C6 on the concrete tie fold: the winner is the
first-scanned candidate, and the equal-scoring later candidate is bounded
by the winning score. -/
theorem C6_tie_break_amended_witness :
    ∃ pre post, [((1:ℕ), txnY), ((0:ℕ), txnX)] = pre ++ ((1:ℕ), txnY) :: post ∧
      (1:ℕ) ∉ ([] : List ℕ) ∧
      calculate_match_score txnZ txnY (1/8) = some (9/10) ∧
      match_threshold ≤ (9:ℚ)/10 ∧
      (∀ c' ∈ pre, c'.1 ∉ ([] : List ℕ) → ∀ s',
        calculate_match_score txnZ c'.2 (1/8) = some s' →
        match_threshold ≤ s' → s' < 9/10) ∧
      (∀ c' ∈ post, c'.1 ∉ ([] : List ℕ) → ∀ s',
        calculate_match_score txnZ c'.2 (1/8) = some s' →
        match_threshold ≤ s' → s' ≤ 9/10) :=
  C6_tie_break_amended (1/8) txnZ [] [((1:ℕ), txnY), ((0:ℕ), txnX)]
    (some (1, txnY), 9/10) evalSelTie (1, txnY) rfl

/-- The negative-tolerance engine's inner loop: the candidate is rejected
by the amount filter, so nothing is matched. -/
theorem evalLoopNeg : enhLoop engN [txnA] (enumFrom 0 [txnA]) [] [] =
    some ([], [txnA], [(0, txnA)]) := by
  have hc : enhCandidate engN 1 19737 "ab" txnA = some none := by
    rw [enhCandidate]
    have habs0 : |(1:ℚ) - 1| = 0 := by norm_num
    norm_num [txnA, engN_tol, evalAmt100, evalDate15, habs0]
  norm_num [enhLoop, enhSelect, enumFrom, txnA_amt, txnA_date, txnA_desc,
    evalAmt100, evalDate15, hc]

/-- C9 counterexample: constructing an engine with a negative amount
tolerance succeeds (no validation error), and the engine then runs to
completion, silently matching nothing. -/
theorem C9_validation_counterexample :
    EnhancedReconciliation.init (some (-1)) 3 (8/10) = engN ∧
    reconcile_transactions engN [txnA] [txnA] =
      some ⟨.discrepancies, 1, 1, 0, 0, 1, [txnA], 1, [txnA], 1, 1, 0⟩ := by
  refine ⟨?_, evalRunNeg⟩
  rw [EnhancedReconciliation.init]
  norm_num [engN]

/-- C9 (amended): construction is total — any tolerance is accepted, with
`None` and `0` silently replaced by the 0.01 default — and a negative
amount tolerance is not rejected but makes every run match nothing. -/
theorem C9_validation_amended :
    (∀ (a : Option ℚ) (d : ℤ) (t : ℚ),
      EnhancedReconciliation.init a d t =
        ⟨match a with | none => 1/100 | some q => if q = 0 then 1/100 else q, d, t⟩) ∧
    (∀ (eng : EnhancedReconciliation) (bank book : List RawTxn)
       (ms : List EnhMatch) (ub : List RawTxn) (live : List (ℕ × RawTxn)),
      eng.amount_tolerance < 0 →
      enhLoop eng bank (enumFrom 0 book) [] [] = some (ms, ub, live) → ms = []) := by
  constructor
  · intro a d t
    rfl
  · intro eng bank book ms ub live hneg h
    exact congrArg Prod.fst (enhLoop_spec eng bank (enumFrom 0 book) [] [] (ms, ub, live) h)

/-- Witness for the amended C9: the negative tolerance -1 is accepted
as-is, and the resulting engine's loop commits no match. -/
theorem C9_validation_amended_witness :
    EnhancedReconciliation.init (some (-1)) 3 (8/10) =
      ⟨if (-1 : ℚ) = 0 then 1/100 else -1, 3, 8/10⟩ ∧
    ([] : List EnhMatch) = [] :=
  ⟨C9_validation_amended.1 (some (-1)) 3 (8/10),
   C9_validation_amended.2 engN [txnA] [txnA] [] [txnA] [(0, txnA)]
     (by rw [engN_tol]; norm_num) evalLoopNeg⟩

/-- C8 counterexample: the suggestion engine raises on −2.00 vs −1.00
(the `Decimal` amount sub-score meets the float 0.3 at line 195) — no
scores are returned at all, in or out of range; a positive pair (2 vs
1.00) raises the same way, and the pairwise batch scorer raises on any
eligible pair (here 1.00 vs 1.00), so its composite never exists either. -/
theorem C8_score_range_counterexample :
    suggest_matches txnM2 [txnM1] = none ∧
    suggestPairScores 2 19737 "ab" txnA = none ∧
    enhCandidate engA 1 19737 "ab" txnA = none :=
  ⟨evalSuggestNeg, evalPairPosNone, evalCandAA⟩

/-- C8 (amended): the bucket scorer lies in [0, 1] for records of any
sign and magnitude.  The pairwise composite never exists — a scored pair
raises before producing it.  The suggestion scorer completes only with
its amount sub-score pinned to the int 0 (any quotient at most 1 raises),
its other sub-scores in [0, 1], and its composite in [0, 0.7]. -/
theorem C8_score_range_amended :
    (∀ (bank book : RawTxn) (tol s : ℚ),
      calculate_match_score bank book tol = some s → 0 ≤ s ∧ s ≤ 1) ∧
    (∀ (eng : EnhancedReconciliation) (ba : ℚ) (bd : ℤ) (bdesc : String)
       (t : RawTxn) (p : ℚ × ℚ),
      enhCandidate eng ba bd bdesc t ≠ some (some p)) ∧
    (∀ (a : ℚ) (dt : ℤ) (desc : String) (t : RawTxn) (ov asc dsc xsc : ℚ),
      suggestPairScores a dt desc t = some (ov, asc, dsc, xsc) →
      asc = 0 ∧ (0 ≤ dsc ∧ dsc ≤ 1) ∧ (0 ≤ xsc ∧ xsc ≤ 1) ∧
        (0 ≤ ov ∧ ov ≤ 7/10)) := by
  refine ⟨fun bank book tol s h => calculate_match_score_bounds h,
    fun eng ba bd bdesc t p h => enhCandidate_not_commit h, ?_⟩
  intro a dt desc t ov asc dsc xsc h
  obtain ⟨pa, pd, hpa, hpd, hne, hq, hasc, hdsc, hxsc, hov⟩ := suggestPairScores_eq h
  have hmem := fuzzy_match_description_mem desc t.description
  have hx0 : 0 ≤ xsc := hxsc ▸ hmem.1
  have hx1 : xsc ≤ 1 := hxsc ▸ hmem.2
  have hq2 : 0 ≤ ((|dt - pd| : ℤ) : ℚ) / 30 := by
    apply div_nonneg
    · exact_mod_cast abs_nonneg (dt - pd)
    · norm_num
  have hm2a : 0 ≤ min (((|dt - pd| : ℤ) : ℚ) / 30) 1 := le_min hq2 zero_le_one
  have hm2b : min (((|dt - pd| : ℤ) : ℚ) / 30) 1 ≤ 1 := min_le_right _ _
  push_cast at hm2a hm2b
  have hd0 : 0 ≤ dsc := by rw [hdsc]; linarith
  have hd1 : dsc ≤ 1 := by rw [hdsc]; linarith
  refine ⟨hasc, ⟨hd0, hd1⟩, ⟨hx0, hx1⟩, ?_, ?_⟩ <;> rw [hov] <;> linarith

/-- Witness for the amended C8 on concrete scored pairs: the bucket
perfect score, the raising pairwise pair, and the completing far-away
suggestion pair. -/
theorem C8_score_range_witness :
    (0 ≤ (1:ℚ) ∧ (1:ℚ) ≤ 1) ∧
    enhCandidate engA 1 19737 "ab" txnA ≠ some (some (1, 1)) ∧
    ((0:ℚ) = 0 ∧ (0 ≤ (1:ℚ) ∧ (1:ℚ) ≤ 1) ∧ (0 ≤ (1:ℚ) ∧ (1:ℚ) ≤ 1) ∧
      (0 ≤ (7:ℚ)/10 ∧ (7:ℚ)/10 ≤ 7/10)) :=
  ⟨C8_score_range_amended.1 txnA txnA (1/100) 1 evalScoreAA,
   C8_score_range_amended.2.1 engA 1 19737 "ab" txnA (1, 1),
   C8_score_range_amended.2.2 1 19737 "ab" txnF (7/10) 0 1 1 evalPairFar⟩

/-- The bucket span exactly as the specification words it:
`max(1, ceil(a * T * 100))`. -/
def specSpan (bank_amount amount_tolerance : ℚ) : ℤ :=
  max 1 ⌈bank_amount * amount_tolerance * 100⌉

/-- Membership in an integer range list. -/
theorem intRangeList_mem {lo : ℤ} {n : ℕ} {x : ℤ} (h1 : lo ≤ x) (h2 : x < lo + n) :
    x ∈ intRangeList lo n := by
  induction n generalizing lo with
  | zero => exfalso; omega
  | succ n ih =>
    rw [intRangeList]
    rcases eq_or_lt_of_le h1 with rfl | hlt
    · exact List.mem_cons_self _ _
    · exact List.mem_cons_of_mem _ (ih (by omega) (by omega))

/-- Every index entry's bucket is the bucket of its parsed absolute
amount. -/
theorem buildBookIndex_bucket :
    ∀ (book : List RawTxn) (i : ℕ) (index : List (ℕ × RawTxn × ℤ)) (e : ℕ × RawTxn × ℤ),
    buildBookIndex i book = some index → e ∈ index →
    ∃ a, parseDecimal e.2.1.amount = some a ∧ e.2.2 = bucketOf |a| := by
  intro book
  induction book with
  | nil =>
    intro i index e h he
    simp only [buildBookIndex, Option.some.injEq] at h
    subst h
    simp at he
  | cons t r ih =>
    intro i index e h he
    rw [buildBookIndex] at h
    rcases hA : parseDecimal t.amount with _ | a
    · rw [hA] at h; exact Option.noConfusion h
    rw [hA] at h
    simp only at h
    rcases hR : buildBookIndex (i + 1) r with _ | rest
    · rw [hR] at h; exact Option.noConfusion h
    rw [hR] at h
    simp only [Option.some.injEq] at h
    subst h
    rcases List.mem_cons.mp he with rfl | he'
    · exact ⟨a, hA, rfl⟩
    · exact ih (i + 1) rest e hR he'

/-- An index entry whose bucket is within the span is visited by the
bucket scan. -/
theorem scannedCandidates_mem {index : List (ℕ × RawTxn × ℤ)} {bb tb : ℤ}
    {i : ℕ} {t : RawTxn} {bkt : ℤ} (hmem : (i, t, bkt) ∈ index)
    (hd : |bkt - bb| ≤ tb) (htb : 1 ≤ tb) :
    (i, t) ∈ scannedCandidates index bb tb := by
  rw [scannedCandidates, List.mem_flatMap]
  refine ⟨bkt, ?_, ?_⟩
  · rw [abs_le] at hd
    have htn : ((2 * tb + 1).toNat : ℤ) = 2 * tb + 1 := Int.toNat_of_nonneg (by omega)
    exact intRangeList_mem (by omega) (by omega)
  · rw [List.mem_map]
    exact ⟨(i, t, bkt), List.mem_filter.mpr ⟨hmem, by simp⟩, rfl⟩

/-- If the relative amount difference of the absolute amounts is within
tolerance, the two buckets are within the scanned span. -/
theorem bucketOf_distance {ba ka tol : ℚ} (htol : 0 ≤ tol)
    (hle : abs (|ba| - |ka|) ≤ tol * |ba|) :
    abs (bucketOf |ka| - bucketOf |ba|) ≤ toleranceBuckets |ba| tol := by
  have h1 := pyRound_close (|ka| * 100)
  have h2 := pyRound_close (|ba| * 100)
  have hx : (0:ℚ) ≤ |ba| * tol * 100 := by positivity
  have h3 : |(|ka|) * 100 - (|ba|) * 100| ≤ |ba| * tol * 100 := by
    rw [show (|ka|) * 100 - (|ba|) * 100 = ((|ka|) - (|ba|)) * 100 by ring, abs_mul,
      show |(100:ℚ)| = 100 by norm_num]
    have hle' : |(|ka|) - (|ba|)| ≤ |ba| * tol :=
      calc |(|ka|) - (|ba|)| = |(|ba|) - (|ka|)| := abs_sub_comm _ _
        _ ≤ tol * |ba| := hle
        _ = |ba| * tol := mul_comm _ _
    exact mul_le_mul_of_nonneg_right hle' (by norm_num)
  have hq : abs ((bucketOf |ka| : ℚ) - (bucketOf |ba| : ℚ)) ≤ |ba| * tol * 100 + 1 := by
    rw [bucketOf, bucketOf]
    rw [abs_le] at h1 h2 h3 ⊢
    constructor <;> linarith
  have hz : abs (bucketOf |ka| - bucketOf |ba|) ≤ ⌊|ba| * tol * 100⌋ + 1 := by
    have hc : ((abs (bucketOf |ka| - bucketOf |ba|) : ℤ) : ℚ) ≤ |ba| * tol * 100 + 1 := by
      push_cast
      exact hq
    have h4 := Int.le_floor.mpr hc
    rwa [Int.floor_add_one] at h4
  rw [toleranceBuckets, pyTrunc_of_nonneg hx]
  exact le_trans hz (le_max_right _ _)

/-- C7 counterexample: for a bank amount of 1.00 and tolerance 0.01 the
code spans 2 buckets per side (`int(a*T*100) + 1`), not the
`max(1, ceil(a*T*100)) = 1` the specification states. -/
theorem C7_bucket_span_counterexample :
    toleranceBuckets 1 (1/100) = 2 ∧ specSpan 1 (1/100) = 1 := by
  refine ⟨evalTb1, ?_⟩
  rw [specSpan, show (1:ℚ) * (1/100) * 100 = 1 by norm_num]
  norm_num

/-- C7 (amended): the span is `max(1, int(a*T*100) + 1)` (floor plus one,
not ceiling), and with that span the lookup is complete: every index entry
that can clear the 0.85 score threshold against a bank record lies in a
scanned bucket, so the bucket scan considers every candidate a naive
pairwise scan could match. -/
theorem C7_bucket_lookup_amended :
    (∀ a T : ℚ, 0 ≤ a * T * 100 → toleranceBuckets a T = max 1 (⌊a * T * 100⌋ + 1)) ∧
    (∀ (tol s : ℚ) (bank kt : RawTxn) (ba : ℚ) (idx : ℕ)
       (index : List (ℕ × RawTxn × ℤ)) (book : List RawTxn) (bkt : ℤ),
      0 ≤ tol →
      buildBookIndex 0 book = some index →
      (idx, kt, bkt) ∈ index →
      parseDecimal bank.amount = some ba →
      calculate_match_score bank kt tol = some s →
      match_threshold ≤ s →
      (idx, kt) ∈ scannedCandidates index (bucketOf |ba|) (toleranceBuckets |ba| tol)) := by
  constructor
  · intro a T h
    rw [toleranceBuckets, pyTrunc_of_nonneg h]
  · intro tol s bank kt ba idx index book bkt htol hidx hmem hba hscore hthr
    obtain ⟨ba', ka, hba', hka, hpos, hle⟩ :=
      calculate_match_score_threshold_amount hscore hthr
    obtain rfl : ba = ba' := Option.some.inj (hba.symm.trans hba')
    obtain ⟨a, hA, hB⟩ := buildBookIndex_bucket book 0 index (idx, kt, bkt) hidx hmem
    simp only at hA hB
    obtain rfl : a = ka := Option.some.inj (hA.symm.trans hka)
    subst hB
    exact scannedCandidates_mem hmem (bucketOf_distance htol hle)
      (le_max_left _ _)

/-- The book index over a single 1.00 record. -/
theorem evalIndexA : buildBookIndex 0 [txnA] = some [(0, txnA, 100)] := by
  have habs : |(1:ℚ)| = 1 := by rw [abs_of_nonneg]; norm_num
  norm_num [buildBookIndex, txnA_amt, evalAmt100, habs, evalBucket1]

/-- Witness for the amended C7 at a 1.00 bank record against a 1.00 book
record. -/
theorem C7_bucket_lookup_amended_witness :
    toleranceBuckets 1 (1/100) = max 1 (⌊(1:ℚ) * (1/100) * 100⌋ + 1) ∧
    ((0 : ℕ), txnA) ∈ scannedCandidates [((0 : ℕ), txnA, (100 : ℤ))]
      (bucketOf |(1:ℚ)|) (toleranceBuckets |(1:ℚ)| (1/100)) :=
  ⟨C7_bucket_lookup_amended.1 1 (1/100) (by norm_num),
   C7_bucket_lookup_amended.2 (1/100) 1 txnA txnA 1 0 [(0, txnA, 100)] [txnA] 100
     (by norm_num) evalIndexA (List.mem_singleton_self _) evalAmt100 evalScoreAA
     (by rw [match_threshold]; norm_num)⟩
